import Mathlib

/-!
Verification of the code-context indexing server: a shallow embedding of its
synchronizer, chunking subsystem, embedding orchestrator and retrieval engine,
with theorems settling the specification claims.

Sources embedded:
 * `src/utils/codeSplitter.ts` — `extensionToSplitter`, `SQLSchemaSplitter`
   (`parseValues`, `splitInsertStatement`, `splitSQLStatements`),
   `globToSqlPattern`, `createFilePatternCondition`
 * `src/tools/processFiles.ts` — the sync transaction of `processFiles`,
   `processFileContents`, and the embedded `queryRepo` retrieval phase
 * `src/tools/embedFiles.ts` — `embedFiles`
Numbers stored in the database are modelled as rationals; SQL result sets as
lists of records; JavaScript `Map` objects as association lists.
-/

namespace CodeContext

/-- JavaScript `toLowerCase`, restricted to the ASCII alphabet used by the
extension switch: lower-case every character of the string. -/
def toLowerStr (s : String) : String := String.mk (s.data.map Char.toLower)

/-- The extension dispatch table of `extensionToSplitter`
(src/utils/codeSplitter.ts lines 329-472), one pair per `case` label, in
source order.  The `default` branch is handled by `extensionToSplitter`. -/
def splitterMap : List (String × String) :=
  [("c++", "cpp"), ("cpp", "cpp"), ("c", "cpp"), ("h", "cpp"), ("hpp", "cpp"),
   ("m", "cpp"), ("mm", "cpp"),
   ("go", "go"),
   ("java", "java"),
   ("js", "js"), ("ts", "js"), ("typescript", "js"), ("tsx", "js"),
   ("jsx", "js"), ("javascript", "js"), ("json", "js"), ("pbxproj", "js"),
   ("yaml", "text"), ("yml", "text"), ("toml", "text"), ("ini", "text"),
   ("cfg", "text"), ("conf", "text"), ("props", "text"), ("env", "text"),
   ("plist", "text"), ("gemfile", "text"), ("dockerfile", "text"),
   ("podfile", "text"), ("patch", "text"),
   ("sh", "text"), ("bash", "text"), ("zsh", "text"), ("fish", "text"),
   ("bat", "text"), ("cmd", "text"),
   ("properties", "text"), ("xsd", "text"),
   ("sql", "sql"),
   ("php", "php"),
   ("proto", "proto"),
   ("py", "python"), ("python", "python"),
   ("rst", "rst"),
   ("rb", "ruby"), ("ruby", "ruby"),
   ("rs", "rust"), ("rust", "rust"),
   ("scala", "scala"),
   ("swift", "swift"),
   ("md", "markdown"), ("markdown", "markdown"),
   ("tex", "latex"), ("latex", "latex"),
   ("html", "html"), ("htm", "html"), ("xml", "html"), ("xsl", "html"),
   ("xdt", "html"), ("xcworkspacedata", "html"), ("xcprivacy", "html"),
   ("xcsettings", "html"), ("xcscheme", "html"),
   ("sol", "sol"), ("solidity", "sol"),
   ("text", "text"), ("txt", "text"), ("lst", "text"), ("reg", "text"),
   ("jpr", "html"), ("jws", "html"), ("iml", "html"),
   ("lock", "ignore"), ("jpg", "ignore"), ("jpeg", "ignore"),
   ("png", "ignore"), ("gif", "ignore"), ("bmp", "ignore"),
   ("svg", "ignore"), ("ico", "ignore"), ("webp", "ignore"),
   ("tiff", "ignore"), ("bin", "ignore"), ("exe", "ignore"),
   ("dll", "ignore"), ("so", "ignore"), ("dylib", "ignore"),
   ("obj", "ignore"), ("o", "ignore"), ("zip", "ignore"),
   ("tar", "ignore"), ("gz", "ignore"), ("rar", "ignore"),
   ("7z", "ignore"), ("jar", "ignore"), ("war", "ignore"),
   ("ear", "ignore"), ("class", "ignore")]

/-- The extensions whose class is "ignore" (the binary/artifact group of the
switch). -/
def ignoreExtensions : List String :=
  ["lock", "jpg", "jpeg", "png", "gif", "bmp", "svg", "ico", "webp",
   "tiff", "bin", "exe", "dll", "so", "dylib", "obj", "o", "zip",
   "tar", "gz", "rar", "7z", "jar", "war", "ear", "class"]

/-- `extensionToSplitter` (src/utils/codeSplitter.ts lines 324-476): empty
extension is plain text; otherwise the lower-cased extension is dispatched
through the switch, defaulting to "text". -/
def extensionToSplitter (extension : String) : String :=
  if extension = "" then "text"
  else
    match splitterMap.find? (fun p => p.1 == toLowerStr extension) with
    | some p => p.2
    | none => "text"

theorem toLowerStr_empty : toLowerStr "" = "" := rfl

theorem toLowerStr_eq_empty {s : String} (h : toLowerStr s = "") : s = "" := by
  have h2 : s.data.map Char.toLower = [] := congrArg String.data h
  have h3 : s.data = [] := List.map_eq_nil_iff.mp h2
  cases s with
  | mk data =>
    cases h3
    rfl

theorem extensionToSplitter_spec :
    extensionToSplitter "" = "text" ∧
    (∀ e₁ e₂ : String, toLowerStr e₁ = toLowerStr e₂ →
      extensionToSplitter e₁ = extensionToSplitter e₂) ∧
    (∀ e : String, toLowerStr e ∉ splitterMap.map Prod.fst →
      extensionToSplitter e = "text") ∧
    (∀ e : String, extensionToSplitter e = "ignore" ↔
      toLowerStr e ∈ ignoreExtensions) := by
  refine ⟨rfl, ?_, ?_, ?_⟩
  · intro e₁ e₂ h
    unfold extensionToSplitter
    by_cases h₁ : e₁ = ""
    · have h₂ : e₂ = "" := by
        apply toLowerStr_eq_empty
        rw [← h, h₁, toLowerStr_empty]
      rw [h₁, h₂]
    · have h₂ : e₂ ≠ "" := by
        intro hc
        refine h₁ (toLowerStr_eq_empty ?_)
        rw [h, hc, toLowerStr_empty]
      rw [if_neg h₁, if_neg h₂, h]
  · intro e he
    unfold extensionToSplitter
    by_cases h₁ : e = ""
    · rw [if_pos h₁]
    · rw [if_neg h₁]
      have hnone : splitterMap.find? (fun p => p.1 == toLowerStr e) = none := by
        rw [List.find?_eq_none]
        intro p hp hb
        have hpe : p.1 = toLowerStr e := eq_of_beq hb
        exact he (hpe ▸ List.mem_map_of_mem Prod.fst hp)
      rw [hnone]
  · intro e
    constructor
    · intro h
      unfold extensionToSplitter at h
      by_cases h₁ : e = ""
      · rw [if_pos h₁] at h
        exact absurd h (by decide)
      · rw [if_neg h₁] at h
        cases hf : splitterMap.find? (fun p => p.1 == toLowerStr e) with
        | none => rw [hf] at h; exact absurd h (by decide)
        | some p =>
          rw [hf] at h
          have hmem : p ∈ splitterMap := List.mem_of_find?_eq_some hf
          have hkey := List.find?_some hf
          have hpe : p.1 = toLowerStr e := eq_of_beq hkey
          have hig : ∀ q ∈ splitterMap, q.2 = "ignore" → q.1 ∈ ignoreExtensions := by
            decide
          rw [← hpe]
          exact hig p hmem h
    · intro h
      have hne : e ≠ "" := by
        intro hc
        rw [hc, toLowerStr_empty] at h
        exact absurd h (by decide)
      have hfind : ∀ k ∈ ignoreExtensions,
          splitterMap.find? (fun p => p.1 == k) = some (k, "ignore") := by
        decide
      unfold extensionToSplitter
      rw [if_neg hne, hfind (toLowerStr e) h]

theorem extensionToSplitter_spec_witness :
    extensionToSplitter "JPG" = "ignore" ∧ extensionToSplitter "weird" = "text" :=
  ⟨(extensionToSplitter_spec.2.2.2 "JPG").mpr (by decide),
   extensionToSplitter_spec.2.2.1 "weird" (by decide)⟩

/-!  Similarity scores of the retrieval scans (`queryRepo`,
src/tools/processFiles.ts).  Both scan queries compute
`SUM(json_extract(value,'$') * json_extract(?,'$['||key||']'))` over
`json_each(fc.embedding)`: the elements of the stored chunk embedding paired
index-wise with the query embedding; a product whose query coordinate is past
the end of the query vector is NULL and skipped by SUM, so the sum ranges
over the common length of the two vectors. -/

def sqlProductSum (chunkEmb queryEmb : List ℚ) : ℚ :=
  ((chunkEmb.zip queryEmb).map (fun p => p.1 * p.2)).sum

/-- Similarity of the initial scan (src/tools/processFiles.ts lines 628-645):
the product sum divided by `queryEmbedding.length`. -/
def similarityInitial (queryEmb chunkEmb : List ℚ) : ℚ :=
  sqlProductSum chunkEmb queryEmb / (queryEmb.length : ℚ)

/-- Similarity of the post-backfill retry scan (lines 698-715): the bare
product sum — the query text contains no division. -/
def similarityRetry (queryEmb chunkEmb : List ℚ) : ℚ :=
  sqlProductSum chunkEmb queryEmb

/-- Modelled from the spec: "a simple coordinate-wise product sum divided by
vector dimensionality". -/
def specScore (queryEmb chunkEmb : List ℚ) : ℚ :=
  (∑ i ∈ Finset.range (min queryEmb.length chunkEmb.length),
     queryEmb.getD i 0 * chunkEmb.getD i 0) / (queryEmb.length : ℚ)

theorem sqlProductSum_eq (c q : List ℚ) :
    sqlProductSum c q =
      ∑ i ∈ Finset.range (min q.length c.length), q.getD i 0 * c.getD i 0 := by
  induction c generalizing q with
  | nil => simp [sqlProductSum]
  | cons a c ih =>
    cases q with
    | nil => simp [sqlProductSum]
    | cons b q =>
      have hmin : min (b :: q).length (a :: c).length = min q.length c.length + 1 := by
        simp [Nat.succ_min_succ]
      rw [hmin, Finset.sum_range_succ']
      have hrest := ih q
      simp only [sqlProductSum, List.zip_cons_cons, List.map_cons, List.sum_cons] at hrest ⊢
      rw [hrest]
      simp [mul_comm, add_comm]

/-- C4 (amended): the initial scan's similarity is the coordinate-wise product
sum divided by the query dimensionality, but the retry scan omits the
division — its score is the bare product sum, i.e. dimensionality times the
initial score. -/
theorem similarity_scan_scores (q c : List ℚ) :
    similarityInitial q c = specScore q c ∧
    similarityRetry q c = (q.length : ℚ) * specScore q c := by
  constructor
  · rw [similarityInitial, specScore, sqlProductSum_eq]
  · rw [similarityRetry, specScore, sqlProductSum_eq]
    rcases eq_or_ne (q.length : ℚ) 0 with h | h
    · have hq : q = [] := by
        have hn : q.length = 0 := by exact_mod_cast h
        exact List.length_eq_zero.mp hn
      subst hq
      simp
    · rw [mul_comm, div_mul_cancel₀ _ h]

/-- C4 (counterexample): on the query vector [1,1] and chunk vector [1,1] the
retry scan's similarity is 2, not the claimed product-sum-over-dimensionality
score 1; the initial scan does divide. -/
theorem similarity_retry_counterexample :
    similarityRetry [1, 1] [1, 1] ≠ specScore [(1 : ℚ), 1] [1, 1] ∧
    similarityInitial [1, 1] [1, 1] = specScore [(1 : ℚ), 1] [1, 1] := by
  constructor
  · intro h
    rw [similarityRetry, sqlProductSum, specScore] at h
    simp [Finset.sum_range_succ] at h
  · exact (similarity_scan_scores [1, 1] [1, 1]).1

/-!  File-pattern filtering (`globToSqlPattern` and
`createFilePatternCondition`, src/utils/filePatternMatcher).  The generated
SQL compares `f.path` with `LIKE` against the translated patterns; `likeMatch`
models SQLite LIKE semantics ('%' matches any sequence of characters
including '/', '_' matches one character, letters compare ASCII
case-insensitively). -/

def likeMatchAux : Nat → List Char → List Char → Bool
  | 0, _, _ => false
  | _ + 1, [], [] => true
  | _ + 1, [], _ :: _ => false
  | fuel + 1, '%' :: ps, [] => likeMatchAux fuel ps []
  | fuel + 1, '%' :: ps, c :: ts =>
      likeMatchAux fuel ps (c :: ts) || likeMatchAux fuel ('%' :: ps) ts
  | _ + 1, '_' :: _, [] => false
  | fuel + 1, '_' :: ps, _ :: ts => likeMatchAux fuel ps ts
  | _ + 1, _ :: _, [] => false
  | fuel + 1, p :: ps, c :: ts =>
      (p.toLower == c.toLower) && likeMatchAux fuel ps ts

def likeMatch (pat text : List Char) : Bool :=
  likeMatchAux (pat.length + text.length + 1) pat text

/-- Global (left-to-right, non-overlapping) replacement of `pat` by `rep`,
modelling JavaScript `String.prototype.replace` with a global literal
pattern; the fuel is the text length, consumed one character or one match at
a time. -/
def replaceAllAux (pat rep : List Char) : Nat → List Char → List Char
  | 0, text => text
  | fuel + 1, text =>
    match text with
    | [] => []
    | c :: rest =>
      if !pat.isEmpty && pat.isPrefixOf (c :: rest) then
        rep ++ replaceAllAux pat rep fuel ((c :: rest).drop pat.length)
      else
        c :: replaceAllAux pat rep fuel rest

def replaceAll (text pat rep : List Char) : List Char :=
  replaceAllAux pat rep text.length text

/-- `globToSqlPattern` (src/utils/filePatternMatcher.ts): replace every
occurrence of "**" with "%", then every remaining "*" with "%". -/
def globToSqlPattern (pattern : String) : String :=
  String.mk (replaceAll (replaceAll pattern.data "**".data "%".data) "*".data "%".data)

/-- Truth value, for one file path, of the WHERE condition built by
`createFilePatternCondition` (src/utils/filePatternMatcher.ts): the path must
LIKE-match at least one include pattern (when any are given) and must
LIKE-match no exclude pattern. -/
def filePatternAccepts (includePatterns excludePatterns : List String)
    (path : String) : Bool :=
  (includePatterns.isEmpty ||
    includePatterns.any (fun p => likeMatch (globToSqlPattern p).data path.data)) &&
  excludePatterns.all (fun p => !(likeMatch (globToSqlPattern p).data path.data))

/-- Modelled from the spec: glob matching in which `**` matches any path
depth while `*` matches only within a single path segment (never crosses
'/').  Needed because the repository implements the filter only via the SQL
LIKE translation. -/
def globMatchAux : Nat → List Char → List Char → Bool
  | 0, _, _ => false
  | _ + 1, [], [] => true
  | _ + 1, [], _ :: _ => false
  | fuel + 1, '*' :: '*' :: ps, [] => globMatchAux fuel ps []
  | fuel + 1, '*' :: '*' :: ps, c :: ts =>
      globMatchAux fuel ps (c :: ts) || globMatchAux fuel ('*' :: '*' :: ps) ts
  | fuel + 1, '*' :: ps, [] => globMatchAux fuel ps []
  | fuel + 1, '*' :: ps, c :: ts =>
      globMatchAux fuel ps (c :: ts) ||
        (!(c == '/') && globMatchAux fuel ('*' :: ps) ts)
  | _ + 1, _ :: _, [] => false
  | fuel + 1, p :: ps, c :: ts => (p == c) && globMatchAux fuel ps ts

def globMatch (pat text : List Char) : Bool :=
  globMatchAux (2 * pat.length + 2 * text.length + 1) pat text

/-- C7: with include pattern "src/*.js" the condition built by
`createFilePatternCondition` accepts the path "src/sub/x.js" (both `*` and
`**` are translated to SQL '%', which crosses '/'), although under the glob
semantics of the claim `*` must not cross a path segment, so the path should
have been rejected. -/
theorem filePattern_star_crosses_segments :
    filePatternAccepts ["src/*.js"] [] "src/sub/x.js" = true ∧
    globMatch "src/*.js".data "src/sub/x.js".data = false := by
  constructor
  · rfl
  · rfl

/-!  `SQLSchemaSplitter.parseValues` and `splitInsertStatement`
(src/utils/codeSplitter.ts lines 16-101). -/

/-- JavaScript `String.prototype.trim` whitespace test for the characters
appearing here. -/
def isWsp (c : Char) : Bool := c == ' ' || c == '\n' || c == '\t' || c == '\r'

/-- `trim`: drop whitespace from both ends. -/
def trimChars (l : List Char) : List Char :=
  ((l.dropWhile isWsp).reverse.dropWhile isWsp).reverse

def trimStr (s : String) : String := String.mk (trimChars s.data)

/-- Separators skipped between value tuples (`','`, `' '`, `'\n'`). -/
def isTupleSep (c : Char) : Bool := c == ',' || c == ' ' || c == '\n'

/-- The scanning loop of `parseValues` (lines 24-59): characters are
accumulated into `cur`; backslash escapes, single/double-quoted strings and
parenthesis nesting are tracked; when the nesting level returns to zero at a
`')'` the trimmed tuple is emitted and following separators are skipped.
The fuel is the length of the unscanned text. -/
def parseValuesAux : Nat → List Char → List Char → Int → Bool → Char → Bool →
    List String
  | 0, _, _, _, _, _, _ => []
  | _ + 1, [], _, _, _, _, _ => []
  | fuel + 1, c :: rest, cur, nesting, inString, stringChar, escapeNext =>
    let cur' := cur ++ [c]
    if escapeNext then
      parseValuesAux fuel rest cur' nesting inString stringChar false
    else if c = '\\' then
      parseValuesAux fuel rest cur' nesting inString stringChar true
    else if c = '\'' ∨ c = '"' then
      if inString ∧ c = stringChar then
        parseValuesAux fuel rest cur' nesting false stringChar false
      else if ¬inString then
        parseValuesAux fuel rest cur' nesting true c false
      else
        parseValuesAux fuel rest cur' nesting inString stringChar false
    else if ¬inString then
      if c = '(' then
        parseValuesAux fuel rest cur' (nesting + 1) inString stringChar false
      else if c = ')' then
        if nesting - 1 = 0 then
          String.mk (trimChars cur') ::
            parseValuesAux fuel (rest.dropWhile isTupleSep) [] (nesting - 1)
              inString stringChar false
        else
          parseValuesAux fuel rest cur' (nesting - 1) inString stringChar false
      else
        parseValuesAux fuel rest cur' nesting inString stringChar false
    else
      parseValuesAux fuel rest cur' nesting inString stringChar false

def parseValues (valuesPart : String) : List String :=
  parseValuesAux valuesPart.data.length valuesPart.data [] 0 false ' ' false

/-- Find the first index at which `sub` occurs in `text`
(JavaScript `indexOf`). -/
def findSubAux (sub : List Char) : Nat → Nat → List Char → Option Nat
  | 0, _, _ => none
  | fuel + 1, i, text =>
    if sub.isPrefixOf text then some i
    else
      match text with
      | [] => none
      | _ :: rest => findSubAux sub fuel (i + 1) rest

def findSub (sub text : List Char) : Option Nat :=
  findSubAux sub (text.length + 1) 0 text

/-- `statement.toUpperCase().indexOf("VALUES")`. -/
def valuesIndex (statement : String) : Option Nat :=
  findSub "VALUES".data (statement.data.map Char.toUpper)

/-- The accumulation loop of `splitInsertStatement` (lines 78-99): group
value tuples while `insertIntoPart.length + currentValues.length +
valueTuple.length + 1` stays within the budget, emitting
`insertIntoPart + currentValues + ";"` when it would not. -/
def insertFold (maxChars : Nat) (ip : String) : List String → String → List String
  | [], cur => if cur ≠ "" then [ip ++ cur ++ ";"] else []
  | t :: ts, cur =>
    if ip.length + cur.length + t.length + 1 ≤ maxChars then
      insertFold maxChars ip ts (if cur ≠ "" then cur ++ "," ++ t else t)
    else
      (ip ++ cur ++ ";") :: insertFold maxChars ip ts t

/-- `splitInsertStatement` (lines 64-101). -/
def splitInsertStatement (maxChars : Nat) (statement : String) : List String :=
  match valuesIndex statement with
  | none => [statement]
  | some idx =>
    let insertIntoPart := String.mk (statement.data.take (idx + 6)) ++ " "
    let valuesPart := String.mk (statement.data.drop (idx + 6))
    insertFold maxChars insertIntoPart (parseValues valuesPart) ""

/-- `insertIntoPart + currentValues + ";"` for a group of tuples joined by
commas. -/
def joinComma : List String → String
  | [] => ""
  | [t] => t
  | t :: ts => t ++ "," ++ joinComma ts

def mkInsertStmt (ip : String) (g : List String) : String := ip ++ joinComma g ++ ";"

theorem str_ext {a b : String} (h : a.data = b.data) : a = b := by
  cases a
  cases b
  cases h
  rfl

theorem str_ne_empty_of_data {s : String} (h : s.data ≠ []) : s ≠ "" := by
  intro hc
  exact h (by rw [hc])

theorem str_ne_empty_of_length {s : String} (h : s.length ≠ 0) : s ≠ "" := by
  intro hc
  exact h (by rw [hc]; rfl)

theorem trimChars_ne_nil_of_mem {l : List Char} {c : Char} (hc : c ∈ l)
    (hw : isWsp c = false) : trimChars l ≠ [] := by
  intro h
  unfold trimChars at h
  rw [List.reverse_eq_nil_iff, List.dropWhile_eq_nil_iff] at h
  have hsplit : c ∈ l.takeWhile isWsp ++ l.dropWhile isWsp := by
    rw [List.takeWhile_append_dropWhile]
    exact hc
  have hc' : c ∈ l.dropWhile isWsp := by
    rcases List.mem_append.mp hsplit with h1 | h2
    · exact absurd (List.mem_takeWhile_imp h1) (by simp [hw])
    · exact h2
  exact absurd (h c (List.mem_reverse.mpr hc')) (by simp [hw])

theorem parseValuesAux_mem_ne_empty :
    ∀ (fuel : Nat) (text cur : List Char) (nesting : Int)
      (inString : Bool) (stringChar : Char) (escapeNext : Bool),
      ∀ t ∈ parseValuesAux fuel text cur nesting inString stringChar escapeNext,
        t ≠ "" := by
  intro fuel
  induction fuel with
  | zero => intro text cur nesting inString stringChar escapeNext t ht; simp [parseValuesAux] at ht
  | succ fuel ih =>
    intro text cur nesting inString stringChar escapeNext t ht
    cases text with
    | nil => simp [parseValuesAux] at ht
    | cons c rest =>
      simp only [parseValuesAux] at ht
      split at ht
      · exact ih _ _ _ _ _ _ t ht
      · split at ht
        · exact ih _ _ _ _ _ _ t ht
        · split at ht
          · split at ht
            · exact ih _ _ _ _ _ _ t ht
            · split at ht
              · exact ih _ _ _ _ _ _ t ht
              · exact ih _ _ _ _ _ _ t ht
          · split at ht
            · split at ht
              · exact ih _ _ _ _ _ _ t ht
              · split at ht
                · split at ht
                  · rcases List.mem_cons.mp ht with h1 | h2
                    · subst h1
                      apply str_ne_empty_of_data
                      apply trimChars_ne_nil_of_mem
                        (c := c) (List.mem_append_right cur (List.mem_singleton.mpr rfl))
                      rename_i hc _
                      rw [hc]
                      rfl
                    · exact ih _ _ _ _ _ _ t h2
                  · exact ih _ _ _ _ _ _ t ht
                · exact ih _ _ _ _ _ _ t ht
            · exact ih _ _ _ _ _ _ t ht

theorem parseValues_mem_ne_empty (s : String) : ∀ t ∈ parseValues s, t ≠ "" :=
  parseValuesAux_mem_ne_empty _ _ _ _ _ _ _

theorem joinComma_cons_cons (t t' : String) (ts : List String) :
    joinComma (t :: t' :: ts) = t ++ "," ++ joinComma (t' :: ts) := rfl

theorem joinComma_ne_empty : ∀ {g : List String}, g ≠ [] → (∀ t ∈ g, t ≠ "") →
    joinComma g ≠ "" := by
  intro g hg hne
  match g with
  | [t] => exact hne t (List.mem_singleton.mpr rfl)
  | t :: t' :: ts =>
    rw [joinComma_cons_cons]
    apply str_ne_empty_of_length
    simp [String.length_append]
    intro h1 h2 h3
    have : ("," : String).length = 1 := rfl
    omega

theorem joinComma_append_singleton :
    ∀ (g : List String), g ≠ [] → ∀ (t : String),
      joinComma (g ++ [t]) = joinComma g ++ "," ++ t := by
  intro g
  induction g with
  | nil => intro h; exact absurd rfl h
  | cons x g ih =>
    intro _ t
    cases g with
    | nil => rfl
    | cons y g' =>
      have h1 : joinComma ((x :: y :: g') ++ [t]) =
          x ++ "," ++ joinComma ((y :: g') ++ [t]) := rfl
      rw [h1, ih (by simp) t, joinComma_cons_cons]
      apply str_ext
      simp

theorem mkInsertStmt_length (ip : String) (g : List String) :
    (mkInsertStmt ip g).length = ip.length + (joinComma g).length + 1 := by
  have h1 : (";" : String).length = 1 := rfl
  simp [mkInsertStmt, String.length_append, h1]

theorem joinComma_append_length (g : List String) (hg : g ≠ []) (t : String) :
    (joinComma (g ++ [t])).length = (joinComma g).length + 1 + t.length := by
  rw [joinComma_append_singleton g hg t]
  have h1 : ("," : String).length = 1 := rfl
  simp [String.length_append, h1]

theorem insertFold_groups (maxChars : Nat) (ip : String) :
    ∀ (ts g : List String), (∀ t ∈ ts, t ≠ "") → (∀ t ∈ g, t ≠ "") →
    (2 ≤ g.length → ip.length + (joinComma g).length + 1 ≤ maxChars + 1) →
    ∃ groups : List (List String),
      insertFold maxChars ip ts (joinComma g) = groups.map (mkInsertStmt ip) ∧
      groups.join = g ++ ts ∧
      ∀ g' ∈ groups, 2 ≤ g'.length → (mkInsertStmt ip g').length ≤ maxChars + 1 := by
  intro ts
  induction ts with
  | nil =>
    intro g _ hgne hbound
    by_cases hg : g = []
    · subst hg
      exact ⟨[], rfl, rfl, by simp⟩
    · refine ⟨[g], ?_, by simp, ?_⟩
      · have hne : joinComma g ≠ "" := joinComma_ne_empty hg hgne
        simp only [insertFold, if_pos hne]
        rfl
      · intro g' hg' h2
        rw [List.mem_singleton.mp hg']
        rw [mkInsertStmt_length]
        exact hbound (List.mem_singleton.mp hg' ▸ h2)
  | cons t ts ih =>
    intro g htne hgne hbound
    have htne' : ∀ x ∈ ts, x ≠ "" := fun x hx => htne x (List.mem_cons_of_mem t hx)
    have ht0 : t ≠ "" := htne t (List.mem_cons_self t ts)
    by_cases hle : ip.length + (joinComma g).length + t.length + 1 ≤ maxChars
    · by_cases hg : g = []
      · subst hg
        have hcur : joinComma ([] : List String) = "" := rfl
        have hstep : insertFold maxChars ip (t :: ts) (joinComma ([] : List String)) =
            insertFold maxChars ip ts (joinComma [t]) := by
          simp only [insertFold, hcur]
          rw [if_pos (by simpa using hle)]
          simp [joinComma]
        obtain ⟨groups, he, hj, hb⟩ := ih [t] htne'
          (fun x hx => by rw [List.mem_singleton.mp hx]; exact ht0)
          (by intro h2; simp at h2)
        exact ⟨groups, hstep ▸ he, by simpa using hj, hb⟩
      · have hne : joinComma g ≠ "" := joinComma_ne_empty hg hgne
        have hstep : insertFold maxChars ip (t :: ts) (joinComma g) =
            insertFold maxChars ip ts (joinComma (g ++ [t])) := by
          simp only [insertFold]
          rw [if_pos hle, if_pos hne, joinComma_append_singleton g hg t]
        have hgne' : ∀ x ∈ g ++ [t], x ≠ "" := by
          intro x hx
          rcases List.mem_append.mp hx with h1 | h2
          · exact hgne x h1
          · rw [List.mem_singleton.mp h2]; exact ht0
        obtain ⟨groups, he, hj, hb⟩ := ih (g ++ [t]) htne' hgne'
          (by
            intro _
            rw [joinComma_append_length g hg t]
            omega)
        refine ⟨groups, hstep ▸ he, ?_, hb⟩
        rw [hj, List.append_assoc]
        rfl
    · have hstep : insertFold maxChars ip (t :: ts) (joinComma g) =
          (ip ++ joinComma g ++ ";") :: insertFold maxChars ip ts (joinComma [t]) := by
        simp only [insertFold]
        rw [if_neg hle]
        rfl
      obtain ⟨groups, he, hj, hb⟩ := ih [t] htne'
        (fun x hx => by rw [List.mem_singleton.mp hx]; exact ht0)
        (by intro h2; simp at h2)
      refine ⟨g :: groups, ?_, ?_, ?_⟩
      · rw [hstep, he]
        rfl
      · have hjoin : (g :: groups).join = g ++ groups.join := by
          simp [List.join]
        rw [hjoin, hj]
        simp
      · intro g' hg' h2
        rcases List.mem_cons.mp hg' with h1 | h1
        · subst h1
          rw [mkInsertStmt_length]
          exact hbound h2
        · exact hb g' h1 h2

/-- C6 (amended): `splitInsertStatement` cuts only at tuple boundaries —
its output is `insertIntoPart ++ (tuples joined by commas) ++ ";"` for a
partition of `parseValues`' tuple list into consecutive groups, preserving
every tuple in order; every produced statement holding at least two tuples
has length at most `maxCharacters + 1` (the length check omits the joining
comma, so the budget can be exceeded by exactly one character); a
single-tuple statement's length is bounded only by that tuple's own length. -/
theorem splitInsertStatement_groups (maxChars : Nat) (statement : String)
    (idx : Nat) (h : valuesIndex statement = some idx) :
    ∃ groups : List (List String),
      splitInsertStatement maxChars statement =
        groups.map (mkInsertStmt (String.mk (statement.data.take (idx + 6)) ++ " ")) ∧
      groups.join = parseValues (String.mk (statement.data.drop (idx + 6))) ∧
      ∀ g ∈ groups, 2 ≤ g.length →
        (mkInsertStmt (String.mk (statement.data.take (idx + 6)) ++ " ") g).length ≤
          maxChars + 1 := by
  have hrw : splitInsertStatement maxChars statement =
      insertFold maxChars (String.mk (statement.data.take (idx + 6)) ++ " ")
        (parseValues (String.mk (statement.data.drop (idx + 6)))) "" := by
    unfold splitInsertStatement
    rw [h]
  obtain ⟨groups, he, hj, hb⟩ :=
    insertFold_groups maxChars (String.mk (statement.data.take (idx + 6)) ++ " ")
      (parseValues (String.mk (statement.data.drop (idx + 6)))) []
      (parseValues_mem_ne_empty _) (by simp) (by intro h2; simp at h2)
  exact ⟨groups, by rw [hrw]; exact he, by simpa using hj, hb⟩

/-- C6 (witness): concrete run of the amended theorem on
"INSERT INTO t VALUES (1),(2);". -/
theorem splitInsertStatement_groups_witness :
    valuesIndex "INSERT INTO t VALUES (1),(2);" = some 14 ∧
    ∃ groups : List (List String),
      splitInsertStatement 28 "INSERT INTO t VALUES (1),(2);" =
        groups.map (mkInsertStmt
          (String.mk ("INSERT INTO t VALUES (1),(2);".data.take (14 + 6)) ++ " ")) ∧
      groups.join =
        parseValues (String.mk ("INSERT INTO t VALUES (1),(2);".data.drop (14 + 6))) ∧
      ∀ g ∈ groups, 2 ≤ g.length →
        (mkInsertStmt
          (String.mk ("INSERT INTO t VALUES (1),(2);".data.take (14 + 6)) ++ " ")
            g).length ≤ 28 + 1 :=
  ⟨rfl, splitInsertStatement_groups 28 "INSERT INTO t VALUES (1),(2);" 14 rfl⟩

/-- C6 (counterexample): with budget 28 the two 3-character tuples of
"INSERT INTO t VALUES (1),(2);" are merged into one 29-character statement —
the produced statement exceeds the budget although no single tuple alone
does (the length check forgets the joining comma). -/
theorem splitInsertStatement_budget_counterexample :
    splitInsertStatement 28 "INSERT INTO t VALUES (1),(2);" =
      ["INSERT INTO t VALUES (1),(2);"] ∧
    28 < ("INSERT INTO t VALUES (1),(2);" : String).length ∧
    parseValues " (1),(2);" = ["(1)", "(2)"] ∧
    ("INSERT INTO t VALUES " : String).length + ("(1)" : String).length + 1 ≤ 28 ∧
    ("INSERT INTO t VALUES " : String).length + ("(2)" : String).length + 1 ≤ 28 := by
  refine ⟨rfl, by decide, rfl, by decide, by decide⟩

/-!  `SQLSchemaSplitter.splitSQLStatements` (src/utils/codeSplitter.ts lines
107-267).  The while-loop is embedded as a fueled state machine over the
character list; `char` and `remainingText` (the upper-cased text from the
current index) are fixed at the top of each iteration, exactly as the
`const` bindings in the source; the `index` mutations and the `continue`
statements (which skip the final `index++`) are threaded explicitly. -/

structure SqlState where
  statements : List String
  cur : String
  insideString : Bool
  stringChar : Char
  insideComment : Bool
  commentLine : Bool
  insideFunction : Bool
  insideProcedure : Bool
  insideView : Bool
  insideBlock : Bool
  blockLevel : Int

def initSqlState : SqlState :=
  ⟨[], "", false, ' ', false, false, false, false, false, false, 0⟩

def beginKeywords : List String := ["BEGIN", "BBEGI", "BEGINN"]
def endKeywords : List String := ["END", "EEN"]

def kwFind (kws : List String) (rem : List Char) : Option String :=
  kws.find? (fun kw => kw.data.isPrefixOf rem)

/-- The first if/else chain of the loop body (lines 133-198): string state,
comment state, string/comment openers, and — when not inside any compound —
detection of `CREATE FUNCTION`/`PROCEDURE`/`VIEW` and of a `BEGIN` keyword
opening a block.  Returns the updated state and the possibly advanced
index. -/
def sqlChainOne (text : List Char) (c : Char) (rem : List Char) (i : Nat)
    (st : SqlState) : SqlState × Nat :=
  if st.insideString then
    if c = st.stringChar then ({ st with insideString := false }, i)
    else if c = '\\' then
      if i + 1 < text.length then
        ({ st with cur := st.cur.push (text.getD (i + 1) ' ') }, i + 1)
      else (st, i + 1)
    else (st, i)
  else if st.insideComment then
    if st.commentLine then
      if c = '\n' ∨ c = '\r' then ({ st with insideComment := false }, i)
      else (st, i)
    else
      if "*/".data.isPrefixOf rem then
        ({ st with insideComment := false, cur := st.cur ++ "*/" }, i + 1)
      else (st, i)
  else if c = '\'' ∨ c = '"' then
    ({ st with insideString := true, stringChar := c }, i)
  else if "/*".data.isPrefixOf rem then
    ({ st with insideComment := true, commentLine := false,
               cur := st.cur ++ "/*" }, i + 1)
  else if "--".data.isPrefixOf rem then
    ({ st with insideComment := true, commentLine := true,
               cur := st.cur ++ "--" }, i + 1)
  else if ¬st.insideFunction ∧ ¬st.insideProcedure ∧ ¬st.insideView ∧
      ¬st.insideBlock then
    if "CREATE FUNCTION".data.isPrefixOf rem ∨
        "CREATE OR REPLACE FUNCTION".data.isPrefixOf rem then
      ({ st with insideFunction := true, blockLevel := 0 }, i)
    else if "CREATE PROCEDURE".data.isPrefixOf rem ∨
        "CREATE OR REPLACE PROCEDURE".data.isPrefixOf rem then
      ({ st with insideProcedure := true, blockLevel := 0 }, i)
    else if "CREATE VIEW".data.isPrefixOf rem ∨
        "CREATE OR REPLACE VIEW".data.isPrefixOf rem then
      ({ st with insideView := true }, i)
    else
      match kwFind beginKeywords rem with
      | some kw =>
        if 5 < kw.length then
          ({ st with insideBlock := true, blockLevel := 1,
                     cur := st.cur ++ String.mk (kw.data.drop 5) },
           i + (kw.length - 5))
        else ({ st with insideBlock := true, blockLevel := 1 }, i)
      | none => (st, i)
  else (st, i)

/-- The second if/else chain of the loop body (lines 200-257): BEGIN/END
depth tracking inside a function/procedure/block (with `continue`, modelled
by returning the next index directly), view termination, and the plain `;`
statement split.  Returns the next index and the updated state. -/
def sqlChainTwo (c : Char) (rem : List Char) (i : Nat) (st : SqlState) :
    Nat × SqlState :=
  if st.insideFunction ∨ st.insideProcedure ∨ st.insideBlock then
    match kwFind beginKeywords rem with
    | some kw =>
      (i + (kw.length - 1),
       { st with blockLevel := st.blockLevel + 1,
                 cur := st.cur ++ String.mk (kw.data.drop 1) })
    | none =>
      match kwFind endKeywords rem with
      | some kw =>
        if kw.length = 3 ∨ kw.length = 4 then
          let st' := { st with blockLevel := st.blockLevel - 1,
                               cur := st.cur ++ String.mk (kw.data.drop 1) }
          if st'.blockLevel = 0 then
            if st'.insideFunction then
              (i + (kw.length - 1),
               { st' with insideFunction := false,
                          statements := st'.statements ++ [trimStr st'.cur],
                          cur := "" })
            else if st'.insideProcedure then
              (i + (kw.length - 1),
               { st' with insideProcedure := false,
                          statements := st'.statements ++ [trimStr st'.cur],
                          cur := "" })
            else if st'.insideBlock then
              (i + (kw.length - 1),
               { st' with insideBlock := false,
                          statements := st'.statements ++ [trimStr st'.cur],
                          cur := "" })
            else (i + (kw.length - 1), st')
          else (i + (kw.length - 1), st')
        else (i + 1, st)
      | none => (i + 1, st)
  else if st.insideView then
    if c = ';' then
      (i + 1, { st with insideView := false,
                        statements := st.statements ++ [trimStr st.cur],
                        cur := "" })
    else (i + 1, st)
  else if c = ';' then
    (i + 1, { st with statements := st.statements ++ [trimStr st.cur],
                      cur := "" })
  else (i + 1, st)

def sqlLoop (text upper : List Char) : Nat → Nat → SqlState → SqlState
  | 0, _, st => st
  | fuel + 1, i, st =>
    if i < text.length then
      let c := text.getD i ' '
      let rem := upper.drop i
      let p1 := sqlChainOne text c rem i { st with cur := st.cur.push c }
      let p2 := sqlChainTwo c rem p1.2 p1.1
      sqlLoop text upper fuel p2.1 p2.2
    else st

/-- `splitSQLStatements` (lines 107-267): run the loop from index 0, then
push the trimmed leftover statement if non-empty. -/
def splitSQLStatements (text : String) : List String :=
  let chars := text.data
  let upper := chars.map Char.toUpper
  let final := sqlLoop chars upper (chars.length + 1) 0 initSqlState
  if trimStr final.cur ≠ "" then final.statements ++ [trimStr final.cur]
  else final.statements

/-- C5: the tokenizer evaluated at failing inputs.  (1) The split decision
for `;` in the second if/else chain does not consult the string state, so
"SELECT 'a;b';" — one statement whose string literal contains a `;` — is
split into two statements at the in-string semicolon.  (2) A plain
`BEGIN…END` block's opening keyword is counted twice (once when the block is
opened, once by the depth tracker in the same iteration), so the depth never
returns to zero at the matching `END` and the whole input collapses into one
statement instead of the expected three.  (3) On compound-free input the
statement count is as specified. -/
theorem splitSQLStatements_failing_inputs :
    splitSQLStatements "SELECT 'a;b';" = ["SELECT 'a;", "b';"] ∧
    (splitSQLStatements "BEGIN SELECT 1; END SELECT 2; DROP TABLE t;").length = 1 ∧
    splitSQLStatements "CREATE TABLE t(x int); INSERT INTO t VALUES (1),(2),(3);" =
      ["CREATE TABLE t(x int);", "INSERT INTO t VALUES (1),(2),(3);"] :=
  ⟨rfl, rfl, rfl⟩

/-!  The persisted store (src/db.ts): tables repository, branch, file,
branch_file_association, file_chunk, modelled as lists of records with
explicit autoincrement counters. -/

structure RepoRec where
  id : Nat
  name : String
  path : String
deriving DecidableEq

structure BranchRec where
  id : Nat
  repoId : Nat
  name : String
  lastCommitSha : String
  status : String
deriving DecidableEq

structure FileRec where
  id : Nat
  repoId : Nat
  path : String
  name : String
  sha : String
  status : String
deriving DecidableEq

structure ChunkRec where
  id : Nat
  fileId : Nat
  chunkNumber : Nat
  content : String
  embedding : Option (List ℚ)
  modelVersion : Option String
deriving DecidableEq

structure DBState where
  repos : List RepoRec
  branches : List BranchRec
  files : List FileRec
  assocs : List (Nat × Nat)
  chunks : List ChunkRec
  nextRepoId : Nat
  nextBranchId : Nat
  nextFileId : Nat
  nextChunkId : Nat
deriving DecidableEq

def branchStatus (st : DBState) (branchId : Nat) : Option String :=
  (st.branches.find? (fun b => b.id == branchId)).map BranchRec.status

def fileStatus (st : DBState) (fileId : Nat) : Option String :=
  (st.files.find? (fun f => f.id == fileId)).map FileRec.status

def setBranchStatus (branchId : Nat) (status : String) (st : DBState) : DBState :=
  { st with branches := st.branches.map (fun b =>
      if b.id == branchId then { b with status := status } else b) }

def setFileStatus (fileId : Nat) (status : String) (st : DBState) : DBState :=
  { st with files := st.files.map (fun f =>
      if f.id == fileId then { f with status := status } else f) }

/-!  The synchronizer: the `processFiles` transaction
(src/tools/processFiles.ts lines 235-356).  The JavaScript `Map` keyed by
path is modelled as the list of previously associated file rows, consumed
with first-match lookup and erasure; the two coincide with `Map`
`get`/`delete` whenever the associated paths are distinct, which is the
partition claim's precondition. -/

/-- One file row of the current VCS listing (`getRepositoryFiles`). -/
structure RepoFile where
  path : String
  name : String
  sha : String
deriving DecidableEq

/-- The new-path branch of the sync loop (lines 267-311): reuse a file with
the same (repository, path, sha) adding only the branch association when it
is missing, else insert a pending file plus its association.  Returns the
updated state and the file id pushed to `filesToProcess`. -/
def registerNewFile (repoId branchId : Nat) (f : RepoFile) (st : DBState) :
    DBState × Nat :=
  match st.files.find? (fun r =>
      r.repoId == repoId && r.path == f.path && r.sha == f.sha) with
  | some r =>
    (if st.assocs.any (fun a => a.1 == branchId && a.2 == r.id) then st
     else { st with assocs := st.assocs ++ [(branchId, r.id)] }, r.id)
  | none =>
    ({ st with
        files := st.files ++
          [⟨st.nextFileId, repoId, f.path, f.name, f.sha, "pending"⟩],
        assocs := st.assocs ++ [(branchId, st.nextFileId)],
        nextFileId := st.nextFileId + 1 }, st.nextFileId)

/-- The removal sweep (lines 331-350): delete the branch association of each
leftover row; when no association remains, cascade-delete the file's chunks
and the file. -/
def removeSweep (branchId : Nat) : List FileRec → DBState → DBState
  | [], st => st
  | r :: rest, st =>
    let st1 := { st with assocs := st.assocs.filter (fun a =>
        !(a.1 == branchId && a.2 == r.id)) }
    let st2 :=
      if st1.assocs.any (fun a => a.2 == r.id) then st1
      else { st1 with
        chunks := st1.chunks.filter (fun c => !(c.fileId == r.id)),
        files := st1.files.filter (fun f => !(f.id == r.id)) }
    removeSweep branchId rest st2

/-- The computed sync result: the updated store, the `filesToProcess` ids,
and the four per-path classifications the transaction makes. -/
structure SyncOut where
  st : DBState
  toProcess : List Nat
  newPaths : List String
  updatedPaths : List String
  unchangedPaths : List String
  removedPaths : List String

/-- The single pass of the sync transaction (lines 263-350): consume the
current listing against the lookup of previously associated rows, then sweep
what remains as removed. -/
def syncFiles (repoId branchId : Nat) :
    List RepoFile → List FileRec → DBState → SyncOut
  | [], lookup, st =>
    ⟨removeSweep branchId lookup st, [], [], [], [], lookup.map FileRec.path⟩
  | f :: rest, lookup, st =>
    match lookup.find? (fun r => r.path == f.path) with
    | none =>
      let pr := registerNewFile repoId branchId f st
      let out := syncFiles repoId branchId rest lookup pr.1
      { out with toProcess := pr.2 :: out.toProcess,
                 newPaths := f.path :: out.newPaths }
    | some r =>
      let lookup' := lookup.eraseP (fun q => q.path == f.path)
      if r.sha == f.sha then
        let out := syncFiles repoId branchId rest lookup' st
        { out with unchangedPaths := f.path :: out.unchangedPaths }
      else
        let st1 := { st with files := st.files.map (fun q =>
            if q.id == r.id then { q with sha := f.sha, status := "pending" }
            else q) }
        let out := syncFiles repoId branchId rest lookup' st1
        { out with toProcess := r.id :: out.toProcess,
                   updatedPaths := f.path :: out.updatedPaths }

/-- The previously persisted file set of a branch — the `existingFiles`
query of the transaction (lines 237-243). -/
def existingFilesOf (st : DBState) (branchId : Nat) : List FileRec :=
  st.files.filter (fun f => st.assocs.any (fun a => a.1 == branchId && a.2 == f.id))

/-- The whole sync transaction of `processFiles` (lines 235-356). -/
def processFilesTx (repoId branchId : Nat) (files : List RepoFile)
    (st : DBState) : SyncOut :=
  syncFiles repoId branchId files (existingFilesOf st branchId) st

theorem mem_eraseP_path {l : List FileRec} {key : String} {r : FileRec}
    (hne : r.path ≠ key) :
    r ∈ l.eraseP (fun q => q.path == key) ↔ r ∈ l := by
  apply List.mem_eraseP_of_neg
  simp [hne]

theorem pathKey_mem_eraseP {l : List FileRec} {key p : String} (hne : p ≠ key) :
    p ∈ (l.eraseP (fun q => q.path == key)).map FileRec.path ↔
      p ∈ l.map FileRec.path := by
  constructor
  · intro h
    obtain ⟨r, hr, hrp⟩ := List.mem_map.mp h
    exact List.mem_map.mpr ⟨r, List.mem_of_mem_eraseP hr, hrp⟩
  · intro h
    obtain ⟨r, hr, hrp⟩ := List.mem_map.mp h
    exact List.mem_map.mpr ⟨r, (mem_eraseP_path (hrp ▸ hne)).mpr hr, hrp⟩

theorem not_mem_eraseP_paths {l : List FileRec} {key : String}
    (hnd : (l.map FileRec.path).Nodup) :
    key ∉ (l.eraseP (fun q => q.path == key)).map FileRec.path := by
  induction l with
  | nil => simp
  | cons r rest ih =>
    have hnd' : r.path ∉ rest.map FileRec.path ∧ (rest.map FileRec.path).Nodup :=
      List.nodup_cons.mp hnd
    by_cases hr : r.path = key
    · rw [List.eraseP_cons_of_pos (by simp [hr])]
      rw [← hr]
      exact hnd'.1
    · rw [List.eraseP_cons_of_neg (by simp [hr])]
      intro hmem
      have hmem' : key ∈ r.path :: (rest.eraseP (fun q => q.path == key)).map FileRec.path := hmem
      rcases List.mem_cons.mp hmem' with heq | htail
      · exact hr heq.symm
      · exact ih hnd'.2 htail

theorem nodup_eraseP_paths {l : List FileRec} {pr : FileRec → Bool}
    (h : (l.map FileRec.path).Nodup) :
    ((l.eraseP pr).map FileRec.path).Nodup :=
  h.sublist ((List.eraseP_sublist l).map FileRec.path)

theorem find?_path_none {l : List FileRec} {key : String} :
    l.find? (fun r => r.path == key) = none ↔ key ∉ l.map FileRec.path := by
  rw [List.find?_eq_none]
  constructor
  · intro h hmem
    obtain ⟨r, hr, hrp⟩ := List.mem_map.mp hmem
    exact h r hr (by simp [hrp])
  · intro h r hr hb
    exact h (List.mem_map.mpr ⟨r, hr, by simpa using hb⟩)

theorem syncFiles_newPaths (repoId branchId : Nat) :
    ∀ (current : List RepoFile) (lookup : List FileRec) (st : DBState),
      (current.map RepoFile.path).Nodup →
      (lookup.map FileRec.path).Nodup →
      ∀ p, p ∈ (syncFiles repoId branchId current lookup st).newPaths ↔
        (p ∈ current.map RepoFile.path ∧ p ∉ lookup.map FileRec.path) := by
  intro current
  induction current with
  | nil =>
    intro lookup st _ _ p
    simp [syncFiles]
  | cons f rest ih =>
    intro lookup st hc hl p
    have hcc : f.path ∉ rest.map RepoFile.path ∧ (rest.map RepoFile.path).Nodup :=
      List.nodup_cons.mp hc
    have hc' : (rest.map RepoFile.path).Nodup := hcc.2
    have hfp : f.path ∉ rest.map RepoFile.path := hcc.1
    cases hfind : lookup.find? (fun r => r.path == f.path) with
    | none =>
      have hnot : f.path ∉ lookup.map FileRec.path := find?_path_none.mp hfind
      simp only [syncFiles, hfind]
      rw [List.mem_cons, ih lookup _ hc' hl p]
      constructor
      · rintro (rfl | ⟨hm, hn⟩)
        · exact ⟨List.mem_cons_self _ _, hnot⟩
        · exact ⟨List.mem_cons_of_mem _ hm, hn⟩
      · rintro ⟨hm, hn⟩
        have hm2 : p = f.path ∨ p ∈ rest.map RepoFile.path := List.mem_cons.mp hm
        rcases hm2 with rfl | hm'
        · exact Or.inl rfl
        · exact Or.inr ⟨hm', hn⟩
    | some r =>
      have hrmem := List.mem_of_find?_eq_some hfind
      have hrpath : r.path = f.path := by simpa using List.find?_some hfind
      have hinl : f.path ∈ lookup.map FileRec.path :=
        List.mem_map.mpr ⟨r, hrmem, hrpath⟩
      have hl' : ((lookup.eraseP (fun q => q.path == f.path)).map FileRec.path).Nodup :=
        nodup_eraseP_paths hl
      have key : ∀ st' : DBState,
          (p ∈ (syncFiles repoId branchId rest
              (lookup.eraseP (fun q => q.path == f.path)) st').newPaths ↔
            (p ∈ (f :: rest).map RepoFile.path ∧ p ∉ lookup.map FileRec.path)) := by
        intro st'
        rw [ih _ st' hc' hl' p]
        by_cases hp : p = f.path
        · subst hp
          simp only [iff_iff_implies_and_implies]
          constructor
          · rintro ⟨hm, _⟩
            exact absurd hm hfp
          · rintro ⟨_, hn⟩
            exact absurd hinl hn
        · rw [pathKey_mem_eraseP hp]
          constructor
          · rintro ⟨hm, hn⟩
            exact ⟨List.mem_cons_of_mem _ hm, hn⟩
          · rintro ⟨hm, hn⟩
            refine ⟨?_, hn⟩
            have hm2 : p = f.path ∨ p ∈ rest.map RepoFile.path := List.mem_cons.mp hm
            rcases hm2 with rfl | hm'
            · exact absurd rfl hp
            · exact hm'
      cases hsha : r.sha == f.sha with
      | true =>
        simp only [syncFiles, hfind, hsha, if_true]
        exact key st
      | false =>
        simp only [syncFiles, hfind, hsha, Bool.false_eq_true, if_false]
        exact key _

theorem syncFiles_removedPaths (repoId branchId : Nat) :
    ∀ (current : List RepoFile) (lookup : List FileRec) (st : DBState),
      (current.map RepoFile.path).Nodup →
      (lookup.map FileRec.path).Nodup →
      ∀ p, p ∈ (syncFiles repoId branchId current lookup st).removedPaths ↔
        (p ∈ lookup.map FileRec.path ∧ p ∉ current.map RepoFile.path) := by
  intro current
  induction current with
  | nil =>
    intro lookup st _ _ p
    simp [syncFiles]
  | cons f rest ih =>
    intro lookup st hc hl p
    have hcc : f.path ∉ rest.map RepoFile.path ∧ (rest.map RepoFile.path).Nodup :=
      List.nodup_cons.mp hc
    cases hfind : lookup.find? (fun r => r.path == f.path) with
    | none =>
      have hnot : f.path ∉ lookup.map FileRec.path := find?_path_none.mp hfind
      simp only [syncFiles, hfind]
      rw [ih lookup _ hcc.2 hl p]
      constructor
      · rintro ⟨hin, hnr⟩
        refine ⟨hin, ?_⟩
        intro hmem
        have hm2 : p = f.path ∨ p ∈ rest.map RepoFile.path := List.mem_cons.mp hmem
        rcases hm2 with rfl | hm'
        · exact hnot hin
        · exact hnr hm'
      · rintro ⟨hin, hnr⟩
        exact ⟨hin, fun hm => hnr (List.mem_cons_of_mem _ hm)⟩
    | some r =>
      have hl' : ((lookup.eraseP (fun q => q.path == f.path)).map FileRec.path).Nodup :=
        nodup_eraseP_paths hl
      have key : ∀ st' : DBState,
          (p ∈ (syncFiles repoId branchId rest
              (lookup.eraseP (fun q => q.path == f.path)) st').removedPaths ↔
            (p ∈ lookup.map FileRec.path ∧ p ∉ (f :: rest).map RepoFile.path)) := by
        intro st'
        rw [ih _ st' hcc.2 hl' p]
        by_cases hp : p = f.path
        · subst hp
          simp only [iff_iff_implies_and_implies]
          constructor
          · rintro ⟨hm, _⟩
            exact absurd hm (not_mem_eraseP_paths hl)
          · rintro ⟨_, hn⟩
            exact absurd (List.mem_cons_self _ _) hn
        · rw [pathKey_mem_eraseP hp]
          constructor
          · rintro ⟨hm, hn⟩
            refine ⟨hm, ?_⟩
            intro hmem
            have hm2 : p = f.path ∨ p ∈ rest.map RepoFile.path := List.mem_cons.mp hmem
            rcases hm2 with rfl | hm'
            · exact hp rfl
            · exact hn hm'
          · rintro ⟨hm, hn⟩
            exact ⟨hm, fun hmem => hn (List.mem_cons_of_mem _ hmem)⟩
      cases hsha : r.sha == f.sha with
      | true =>
        simp only [syncFiles, hfind, hsha, if_true]
        exact key st
      | false =>
        simp only [syncFiles, hfind, hsha, Bool.false_eq_true, if_false]
        exact key _

theorem syncFiles_updatedPaths (repoId branchId : Nat) :
    ∀ (current : List RepoFile) (lookup : List FileRec) (st : DBState),
      (current.map RepoFile.path).Nodup →
      (lookup.map FileRec.path).Nodup →
      ∀ p, p ∈ (syncFiles repoId branchId current lookup st).updatedPaths ↔
        (∃ g ∈ current, g.path = p ∧
          ∃ r ∈ lookup, r.path = p ∧ r.sha ≠ g.sha) := by
  intro current
  induction current with
  | nil =>
    intro lookup st _ _ p
    simp [syncFiles]
  | cons f rest ih =>
    intro lookup st hc hl p
    have hcc : f.path ∉ rest.map RepoFile.path ∧ (rest.map RepoFile.path).Nodup :=
      List.nodup_cons.mp hc
    have hfp := hcc.1
    cases hfind : lookup.find? (fun r => r.path == f.path) with
    | none =>
      have hnot : f.path ∉ lookup.map FileRec.path := find?_path_none.mp hfind
      simp only [syncFiles, hfind]
      rw [ih lookup _ hcc.2 hl p]
      constructor
      · rintro ⟨g, hg, hgp, r', hr', hrp, hne⟩
        exact ⟨g, List.mem_cons_of_mem _ hg, hgp, r', hr', hrp, hne⟩
      · rintro ⟨g, hg, hgp, r', hr', hrp, hne⟩
        rcases List.mem_cons.mp hg with rfl | hg'
        · exact absurd (List.mem_map.mpr ⟨r', hr', by rw [hrp, hgp]⟩) hnot
        · exact ⟨g, hg', hgp, r', hr', hrp, hne⟩
    | some r =>
      have hrmem := List.mem_of_find?_eq_some hfind
      have hrpath : r.path = f.path := by simpa using List.find?_some hfind
      have hl' : ((lookup.eraseP (fun q => q.path == f.path)).map FileRec.path).Nodup :=
        nodup_eraseP_paths hl
      have huniq : ∀ r' ∈ lookup, r'.path = f.path → r' = r := by
        intro r' hr' hr'p
        exact List.inj_on_of_nodup_map hl hr' hrmem (by rw [hr'p, hrpath])
      have tailiff : ∀ st' : DBState, p ≠ f.path →
          (p ∈ (syncFiles repoId branchId rest
              (lookup.eraseP (fun q => q.path == f.path)) st').updatedPaths ↔
            (∃ g ∈ f :: rest, g.path = p ∧
              ∃ r' ∈ lookup, r'.path = p ∧ r'.sha ≠ g.sha)) := by
        intro st' hp
        rw [ih _ st' hcc.2 hl' p]
        constructor
        · rintro ⟨g, hg, hgp, r', hr', hrp, hne⟩
          exact ⟨g, List.mem_cons_of_mem _ hg, hgp, r',
            (mem_eraseP_path (by rw [hrp]; exact hp)).mp hr', hrp, hne⟩
        · rintro ⟨g, hg, hgp, r', hr', hrp, hne⟩
          rcases List.mem_cons.mp hg with rfl | hg'
          · exact absurd hgp.symm hp
          · exact ⟨g, hg', hgp, r',
              (mem_eraseP_path (by rw [hrp]; exact hp)).mpr hr', hrp, hne⟩
      have headforward : ∀ g ∈ f :: rest, g.path = f.path → g = f := by
        intro g hg hgp
        rcases List.mem_cons.mp hg with rfl | hg'
        · rfl
        · exact absurd (List.mem_map.mpr ⟨g, hg', hgp⟩) hfp
      cases hsha : r.sha == f.sha with
      | true =>
        have hshaeq : r.sha = f.sha := by simpa using hsha
        simp only [syncFiles, hfind, hsha, if_true]
        by_cases hp : p = f.path
        · subst hp
          rw [ih _ st hcc.2 hl' _]
          simp only [iff_iff_implies_and_implies]
          constructor
          · rintro ⟨g, hg, hgp, _⟩
            exact absurd (List.mem_map.mpr ⟨g, hg, hgp⟩) hfp
          · rintro ⟨g, hg, hgp, r', hr', hrp, hne⟩
            have hgf := headforward g hg hgp
            subst hgf
            have hrr := huniq r' hr' hrp
            subst hrr
            exact absurd hshaeq hne
        · exact tailiff st hp
      | false =>
        have hshane : r.sha ≠ f.sha := by simpa using hsha
        simp only [syncFiles, hfind, hsha, Bool.false_eq_true, if_false]
        by_cases hp : p = f.path
        · subst hp
          rw [List.mem_cons]
          constructor
          · intro _
            exact ⟨f, List.mem_cons_self _ _, rfl, r, hrmem, hrpath, hshane⟩
          · intro _
            exact Or.inl rfl
        · rw [List.mem_cons]
          constructor
          · rintro (rfl | htail)
            · exact absurd rfl hp
            · exact (tailiff _ hp).mp htail
          · intro hr
            exact Or.inr ((tailiff _ hp).mpr hr)

theorem syncFiles_unchangedPaths (repoId branchId : Nat) :
    ∀ (current : List RepoFile) (lookup : List FileRec) (st : DBState),
      (current.map RepoFile.path).Nodup →
      (lookup.map FileRec.path).Nodup →
      ∀ p, p ∈ (syncFiles repoId branchId current lookup st).unchangedPaths ↔
        (∃ g ∈ current, g.path = p ∧
          ∃ r ∈ lookup, r.path = p ∧ r.sha = g.sha) := by
  intro current
  induction current with
  | nil =>
    intro lookup st _ _ p
    simp [syncFiles]
  | cons f rest ih =>
    intro lookup st hc hl p
    have hcc : f.path ∉ rest.map RepoFile.path ∧ (rest.map RepoFile.path).Nodup :=
      List.nodup_cons.mp hc
    have hfp := hcc.1
    cases hfind : lookup.find? (fun r => r.path == f.path) with
    | none =>
      have hnot : f.path ∉ lookup.map FileRec.path := find?_path_none.mp hfind
      simp only [syncFiles, hfind]
      rw [ih lookup _ hcc.2 hl p]
      constructor
      · rintro ⟨g, hg, hgp, r', hr', hrp, hne⟩
        exact ⟨g, List.mem_cons_of_mem _ hg, hgp, r', hr', hrp, hne⟩
      · rintro ⟨g, hg, hgp, r', hr', hrp, hne⟩
        rcases List.mem_cons.mp hg with rfl | hg'
        · exact absurd (List.mem_map.mpr ⟨r', hr', by rw [hrp, hgp]⟩) hnot
        · exact ⟨g, hg', hgp, r', hr', hrp, hne⟩
    | some r =>
      have hrmem := List.mem_of_find?_eq_some hfind
      have hrpath : r.path = f.path := by simpa using List.find?_some hfind
      have hl' : ((lookup.eraseP (fun q => q.path == f.path)).map FileRec.path).Nodup :=
        nodup_eraseP_paths hl
      have huniq : ∀ r' ∈ lookup, r'.path = f.path → r' = r := by
        intro r' hr' hr'p
        exact List.inj_on_of_nodup_map hl hr' hrmem (by rw [hr'p, hrpath])
      have tailiff : ∀ st' : DBState, p ≠ f.path →
          (p ∈ (syncFiles repoId branchId rest
              (lookup.eraseP (fun q => q.path == f.path)) st').unchangedPaths ↔
            (∃ g ∈ f :: rest, g.path = p ∧
              ∃ r' ∈ lookup, r'.path = p ∧ r'.sha = g.sha)) := by
        intro st' hp
        rw [ih _ st' hcc.2 hl' p]
        constructor
        · rintro ⟨g, hg, hgp, r', hr', hrp, hne⟩
          exact ⟨g, List.mem_cons_of_mem _ hg, hgp, r',
            (mem_eraseP_path (by rw [hrp]; exact hp)).mp hr', hrp, hne⟩
        · rintro ⟨g, hg, hgp, r', hr', hrp, hne⟩
          rcases List.mem_cons.mp hg with rfl | hg'
          · exact absurd hgp.symm hp
          · exact ⟨g, hg', hgp, r',
              (mem_eraseP_path (by rw [hrp]; exact hp)).mpr hr', hrp, hne⟩
      have headforward : ∀ g ∈ f :: rest, g.path = f.path → g = f := by
        intro g hg hgp
        rcases List.mem_cons.mp hg with rfl | hg'
        · rfl
        · exact absurd (List.mem_map.mpr ⟨g, hg', hgp⟩) hfp
      cases hsha : r.sha == f.sha with
      | true =>
        have hshaeq : r.sha = f.sha := by simpa using hsha
        simp only [syncFiles, hfind, hsha, if_true]
        by_cases hp : p = f.path
        · subst hp
          rw [List.mem_cons]
          constructor
          · intro _
            exact ⟨f, List.mem_cons_self _ _, rfl, r, hrmem, hrpath, hshaeq⟩
          · intro _
            exact Or.inl rfl
        · rw [List.mem_cons]
          constructor
          · rintro (rfl | htail)
            · exact absurd rfl hp
            · exact (tailiff _ hp).mp htail
          · intro hr
            exact Or.inr ((tailiff _ hp).mpr hr)
      | false =>
        have hshane : r.sha ≠ f.sha := by simpa using hsha
        simp only [syncFiles, hfind, hsha, Bool.false_eq_true, if_false]
        by_cases hp : p = f.path
        · subst hp
          rw [ih _ _ hcc.2 hl' _]
          simp only [iff_iff_implies_and_implies]
          constructor
          · rintro ⟨g, hg, hgp, _⟩
            exact absurd (List.mem_map.mpr ⟨g, hg, hgp⟩) hfp
          · rintro ⟨g, hg, hgp, r', hr', hrp, hne⟩
            have hgf := headforward g hg hgp
            subst hgf
            have hrr := huniq r' hr' hrp
            subst hrr
            exact absurd hne hshane
        · exact tailiff _ hp

/-- The matcher used by the new-file branch: a file row with the same
repository, path and content identifier. -/
def sameFileKey (repoId : Nat) (f : RepoFile) : FileRec → Bool :=
  fun q => q.repoId == repoId && q.path == f.path && q.sha == f.sha

theorem registerNewFile_spec (repoId branchId : Nat) (f : RepoFile) (st : DBState) :
    (∀ r, st.files.find? (sameFileKey repoId f) = some r →
      ((registerNewFile repoId branchId f st).1.files = st.files ∧
       (registerNewFile repoId branchId f st).2 = r.id ∧
       (branchId, r.id) ∈ (registerNewFile repoId branchId f st).1.assocs)) ∧
    (st.files.find? (sameFileKey repoId f) = none →
      ((registerNewFile repoId branchId f st).1.files =
         st.files ++ [⟨st.nextFileId, repoId, f.path, f.name, f.sha, "pending"⟩] ∧
       (registerNewFile repoId branchId f st).2 = st.nextFileId ∧
       (branchId, st.nextFileId) ∈ (registerNewFile repoId branchId f st).1.assocs)) := by
  constructor
  · intro r hr
    have hr' : st.files.find? (fun q =>
        q.repoId == repoId && q.path == f.path && q.sha == f.sha) = some r := hr
    cases hass : st.assocs.any (fun a => a.1 == branchId && a.2 == r.id) with
    | true =>
      obtain ⟨a, ha, hab⟩ := List.any_eq_true.mp hass
      have h12 := (Bool.and_eq_true _ _).mp hab
      have h1 : a.1 = branchId := by simpa using h12.1
      have h2 : a.2 = r.id := by simpa using h12.2
      have hmem : (branchId, r.id) ∈ st.assocs := by
        have haeq : a = (branchId, r.id) := by
          cases a
          simp only [Prod.mk.injEq]
          exact ⟨h1, h2⟩
        rw [← haeq]
        exact ha
      refine ⟨?_, ?_, ?_⟩ <;> simp [registerNewFile, hr', hass, hmem]
    | false =>
      refine ⟨?_, ?_, ?_⟩ <;> simp [registerNewFile, hr', hass]
  · intro hn
    have hn' : st.files.find? (fun q =>
        q.repoId == repoId && q.path == f.path && q.sha == f.sha) = none := hn
    refine ⟨?_, ?_, ?_⟩ <;> simp [registerNewFile, hn']

/-- The full statement of the partition claim over one run of the sync
transaction: membership characterization of the four computed sets, their
pairwise disjointness, and the insert-or-reuse behaviour of the new-file
branch. -/
def SyncPartitionSpec (repoId branchId : Nat) (files : List RepoFile)
    (st : DBState) : Prop :=
  (∀ p, p ∈ (processFilesTx repoId branchId files st).newPaths ↔
    (p ∈ files.map RepoFile.path ∧
     p ∉ (existingFilesOf st branchId).map FileRec.path)) ∧
  (∀ p, p ∈ (processFilesTx repoId branchId files st).updatedPaths ↔
    (∃ g ∈ files, g.path = p ∧
      ∃ r ∈ existingFilesOf st branchId, r.path = p ∧ r.sha ≠ g.sha)) ∧
  (∀ p, p ∈ (processFilesTx repoId branchId files st).unchangedPaths ↔
    (∃ g ∈ files, g.path = p ∧
      ∃ r ∈ existingFilesOf st branchId, r.path = p ∧ r.sha = g.sha)) ∧
  (∀ p, p ∈ (processFilesTx repoId branchId files st).removedPaths ↔
    (p ∈ (existingFilesOf st branchId).map FileRec.path ∧
     p ∉ files.map RepoFile.path)) ∧
  (∀ p, ¬(p ∈ (processFilesTx repoId branchId files st).newPaths ∧
          p ∈ (processFilesTx repoId branchId files st).updatedPaths)) ∧
  (∀ p, ¬(p ∈ (processFilesTx repoId branchId files st).newPaths ∧
          p ∈ (processFilesTx repoId branchId files st).unchangedPaths)) ∧
  (∀ p, ¬(p ∈ (processFilesTx repoId branchId files st).newPaths ∧
          p ∈ (processFilesTx repoId branchId files st).removedPaths)) ∧
  (∀ p, ¬(p ∈ (processFilesTx repoId branchId files st).updatedPaths ∧
          p ∈ (processFilesTx repoId branchId files st).unchangedPaths)) ∧
  (∀ p, ¬(p ∈ (processFilesTx repoId branchId files st).updatedPaths ∧
          p ∈ (processFilesTx repoId branchId files st).removedPaths)) ∧
  (∀ p, ¬(p ∈ (processFilesTx repoId branchId files st).unchangedPaths ∧
          p ∈ (processFilesTx repoId branchId files st).removedPaths)) ∧
  (∀ (g : RepoFile) (st' : DBState),
    (∀ r, st'.files.find? (sameFileKey repoId g) = some r →
      ((registerNewFile repoId branchId g st').1.files = st'.files ∧
       (registerNewFile repoId branchId g st').2 = r.id ∧
       (branchId, r.id) ∈ (registerNewFile repoId branchId g st').1.assocs)) ∧
    (st'.files.find? (sameFileKey repoId g) = none →
      ((registerNewFile repoId branchId g st').1.files =
         st'.files ++ [⟨st'.nextFileId, repoId, g.path, g.name, g.sha, "pending"⟩] ∧
       (registerNewFile repoId branchId g st').2 = st'.nextFileId ∧
       (branchId, st'.nextFileId) ∈ (registerNewFile repoId branchId g st').1.assocs)))

/-- C1: the sync transaction's computed new/updated/unchanged/removed sets
exactly partition the paths of the prior persisted file set and the current
listing by path and content identifier, no path lands in two sets, and a
new path either reuses an existing (repository, path, sha) file — adding
only the branch association — or inserts a pending file. -/
theorem sync_partition_correct (repoId branchId : Nat) (files : List RepoFile)
    (st : DBState)
    (h1 : (files.map RepoFile.path).Nodup)
    (h0 : ((existingFilesOf st branchId).map FileRec.path).Nodup) :
    SyncPartitionSpec repoId branchId files st := by
  have hnew := syncFiles_newPaths repoId branchId files (existingFilesOf st branchId) st h1 h0
  have hupd := syncFiles_updatedPaths repoId branchId files (existingFilesOf st branchId) st h1 h0
  have hunc := syncFiles_unchangedPaths repoId branchId files (existingFilesOf st branchId) st h1 h0
  have hrem := syncFiles_removedPaths repoId branchId files (existingFilesOf st branchId) st h1 h0
  refine ⟨hnew, hupd, hunc, hrem, ?_, ?_, ?_, ?_, ?_, ?_,
    fun g st' => registerNewFile_spec repoId branchId g st'⟩
  · rintro p ⟨ha, hb⟩
    obtain ⟨_, hn⟩ := (hnew p).mp ha
    obtain ⟨g, _, _, r, hr, hrp, _⟩ := (hupd p).mp hb
    exact hn (List.mem_map.mpr ⟨r, hr, hrp⟩)
  · rintro p ⟨ha, hb⟩
    obtain ⟨_, hn⟩ := (hnew p).mp ha
    obtain ⟨g, _, _, r, hr, hrp, _⟩ := (hunc p).mp hb
    exact hn (List.mem_map.mpr ⟨r, hr, hrp⟩)
  · rintro p ⟨ha, hb⟩
    obtain ⟨hm, _⟩ := (hnew p).mp ha
    obtain ⟨_, hn⟩ := (hrem p).mp hb
    exact hn hm
  · rintro p ⟨ha, hb⟩
    obtain ⟨g, hg, hgp, r, hr, hrp, hne⟩ := (hupd p).mp ha
    obtain ⟨g', hg', hgp', r', hr', hrp', heq⟩ := (hunc p).mp hb
    have hgg : g = g' := List.inj_on_of_nodup_map h1 hg hg' (by rw [hgp, hgp'])
    have hrr : r = r' := List.inj_on_of_nodup_map h0 hr hr' (by rw [hrp, hrp'])
    subst hgg
    subst hrr
    exact hne (heq)
  · rintro p ⟨ha, hb⟩
    obtain ⟨g, hg, hgp, _⟩ := (hupd p).mp ha
    obtain ⟨_, hn⟩ := (hrem p).mp hb
    exact hn (List.mem_map.mpr ⟨g, hg, hgp⟩)
  · rintro p ⟨ha, hb⟩
    obtain ⟨g, hg, hgp, _⟩ := (hunc p).mp ha
    obtain ⟨_, hn⟩ := (hrem p).mp hb
    exact hn (List.mem_map.mpr ⟨g, hg, hgp⟩)

/-- C1 (witness): the partition theorem applied to a concrete store holding
files a.ts (updated) and b.ts (removed) and a listing bringing a.ts (new
sha) and c.ts (new). -/
theorem sync_partition_correct_witness :
    (([⟨"a.ts", "a.ts", "s9"⟩, ⟨"c.ts", "c.ts", "s3"⟩] :
        List RepoFile).map RepoFile.path).Nodup ∧
    ((existingFilesOf
        ⟨[], [], [⟨1, 7, "a.ts", "a.ts", "s1", "done"⟩,
            ⟨2, 7, "b.ts", "b.ts", "s2", "done"⟩], [(5, 1), (5, 2)], [],
          1, 1, 3, 1⟩ 5).map FileRec.path).Nodup ∧
    SyncPartitionSpec 7 5 [⟨"a.ts", "a.ts", "s9"⟩, ⟨"c.ts", "c.ts", "s3"⟩]
      ⟨[], [], [⟨1, 7, "a.ts", "a.ts", "s1", "done"⟩,
          ⟨2, 7, "b.ts", "b.ts", "s2", "done"⟩], [(5, 1), (5, 2)], [],
        1, 1, 3, 1⟩ :=
  ⟨by decide, by decide,
   sync_partition_correct 7 5 _ _ (by decide) (by decide)⟩

/-!  `processFileContents` (src/tools/processFiles.ts lines 93-192): select
pending files of the branch, read and sanitize each file's content, chunk it
(the recursive character splitter is the external langchain collaborator,
passed as `chunker`), and store the chunks with
`INSERT … ON CONFLICT(file_id, chunk_number) DO NOTHING`, then set the file
status to 'fetched' ('done' for ignored extensions). -/

/-- `file.path.split(".").pop()`: the characters after the last '.', or the
whole path when it holds none. -/
def lastExt (path : String) : String :=
  String.mk ((path.data.reverse.takeWhile (fun c => !(c == '.'))).reverse)

/-- The sanitization of lines 137-163: strip null bytes, then truncate to
1,000,000 characters.  (The UTF-8 re-encode check of lines 145-154 is the
identity on decodable strings, which is what the embedding's `String`
already guarantees.) -/
def sanitizeContent (s : String) : String :=
  String.mk ((s.data.filter (fun c => !(c == '\x00'))).take 1000000)

/-- One `INSERT INTO file_chunk … ON CONFLICT(file_id, chunk_number) DO
NOTHING` (lines 171-175). -/
def insertChunkNC (fileId n : Nat) (content : String) (st : DBState) : DBState :=
  if st.chunks.any (fun c => c.fileId == fileId && c.chunkNumber == n) then st
  else { st with
    chunks := st.chunks ++ [⟨st.nextChunkId, fileId, n, content, none, none⟩],
    nextChunkId := st.nextChunkId + 1 }

def insertChunksNC (fileId : Nat) : List (Nat × String) → DBState → DBState
  | [], st => st
  | (n, s) :: rest, st => insertChunksNC fileId rest (insertChunkNC fileId n s st)

/-- Chunk numbers are 1-based positions in the produced chunk list. -/
def enumChunks (chunks : List String) : List (Nat × String) :=
  chunks.enum.map (fun p => (p.1 + 1, p.2))

/-- The per-file storage transaction (lines 169-183): insert every chunk with
conflict-ignore, then set the file status to 'fetched'. -/
def storeChunksTx (fileId : Nat) (chunks : List String) (st : DBState) : DBState :=
  setFileStatus fileId "fetched" (insertChunksNC fileId (enumChunks chunks) st)

/-- The loop body for one pending file (lines 118-191): dispatch on the
extension ('ignore' goes straight to status 'done'), read the content
(a failing read is caught, logged and skipped), sanitize, chunk and store. -/
def processOneFile (reader : String → Except String String)
    (chunker : String → String → List String) (f : FileRec) (st : DBState) :
    DBState :=
  let ext := toLowerStr (lastExt f.path)
  let splitType := if ext = "" then "ignore" else extensionToSplitter ext
  if splitType ≠ "ignore" then
    match reader f.path with
    | .error _ => st
    | .ok content =>
      storeChunksTx f.id (chunker f.path (sanitizeContent content)) st
  else
    setFileStatus f.id "done" st

def processFilesLoop (reader : String → Except String String)
    (chunker : String → String → List String) :
    List FileRec → DBState → DBState
  | [], st => st
  | f :: rest, st =>
    processFilesLoop reader chunker rest (processOneFile reader chunker f st)

/-- `processFileContents` (lines 93-192): look up the repository by path and
the branch by name, select the branch's pending files, and process each.
A missing repository or branch row aborts the stage (the thrown lookup error
is caught by the caller's inner try/catch). -/
def processFileContentsRun (reader : String → Except String String)
    (chunker : String → String → List String) (branchName repoPath : String)
    (st : DBState) : DBState × Option String :=
  match st.repos.find? (fun r => r.path == repoPath) with
  | none => (st, some "repository not found")
  | some repo =>
    match st.branches.find? (fun b => b.name == branchName && b.repoId == repo.id) with
    | none => (st, some "branch not found")
    | some branch =>
      let pending := st.files.filter (fun f =>
        f.status == "pending" &&
          st.assocs.any (fun a => a.1 == branch.id && a.2 == f.id))
      (processFilesLoop reader chunker pending st, none)

/-- The (file, ordinal, content, embedding) view of a chunk row — chunk ids
are autoincrement bookkeeping. -/
def chunkView (c : ChunkRec) : Nat × Nat × String × Option (List ℚ) :=
  (c.fileId, c.chunkNumber, c.content, c.embedding)

theorem insertChunksNC_view (fileId : Nat) :
    ∀ (pairs : List (Nat × String)) (st : DBState),
      (pairs.map Prod.fst).Nodup →
      (insertChunksNC fileId pairs st).chunks.map chunkView =
        st.chunks.map chunkView ++
          ((pairs.filter (fun p => !(st.chunks.any (fun c =>
              c.fileId == fileId && c.chunkNumber == p.1)))).map
            (fun p => (fileId, p.1, p.2, (none : Option (List ℚ))))) := by
  intro pairs
  induction pairs with
  | nil =>
    intro st _
    simp [insertChunksNC]
  | cons hd rest ih =>
    intro st hnd
    obtain ⟨n, s⟩ := hd
    have hnd' : (rest.map Prod.fst).Nodup := (List.nodup_cons.mp hnd).2
    have hn : (n : Nat) ∉ rest.map Prod.fst := (List.nodup_cons.mp hnd).1
    by_cases hocc : st.chunks.any (fun c => c.fileId == fileId && c.chunkNumber == n) = true
    · have hstep : insertChunksNC fileId ((n, s) :: rest) st =
          insertChunksNC fileId rest st := by
        simp only [insertChunksNC, insertChunkNC, hocc, if_true]
      rw [hstep, ih st hnd']
      have hfil : ((n, s) :: rest).filter (fun p => !(st.chunks.any (fun c =>
          c.fileId == fileId && c.chunkNumber == p.1))) =
          rest.filter (fun p => !(st.chunks.any (fun c =>
            c.fileId == fileId && c.chunkNumber == p.1))) := by
        rw [List.filter_cons]
        simp [hocc]
      rw [hfil]
    · have hocc' : st.chunks.any (fun c =>
          c.fileId == fileId && c.chunkNumber == n) = false :=
        Bool.not_eq_true _ ▸ (by simpa using hocc)
      have hstep : insertChunksNC fileId ((n, s) :: rest) st =
          insertChunksNC fileId rest
            { st with
              chunks := st.chunks ++ [⟨st.nextChunkId, fileId, n, s, none, none⟩],
              nextChunkId := st.nextChunkId + 1 } := by
        simp only [insertChunksNC, insertChunkNC, hocc', Bool.false_eq_true, if_false]
      rw [hstep, ih _ hnd']
      have hfil : (rest.filter (fun p => !(({ st with
            chunks := st.chunks ++ [⟨st.nextChunkId, fileId, n, s, none, none⟩],
            nextChunkId := st.nextChunkId + 1 } : DBState).chunks.any (fun c =>
              c.fileId == fileId && c.chunkNumber == p.1)))) =
          (rest.filter (fun p => !(st.chunks.any (fun c =>
            c.fileId == fileId && c.chunkNumber == p.1)))) := by
        apply List.filter_congr
        intro p hp
        have hpn : p.1 ≠ n := by
          intro hc
          exact hn (hc ▸ List.mem_map.mpr ⟨p, hp, rfl⟩)
        simp only [List.any_append]
        have hone : ([⟨st.nextChunkId, fileId, n, s, none, none⟩] :
            List ChunkRec).any (fun c => c.fileId == fileId && c.chunkNumber == p.1) =
            false := by
          simp [hpn.symm]
        rw [hone, Bool.or_false]
      rw [hfil]
      have hfc : ((n, s) :: rest).filter (fun p => !(st.chunks.any (fun c =>
          c.fileId == fileId && c.chunkNumber == p.1))) =
          (n, s) :: (rest.filter (fun p => !(st.chunks.any (fun c =>
            c.fileId == fileId && c.chunkNumber == p.1)))) := by
        rw [List.filter_cons]
        simp [hocc']
      rw [hfc]
      simp [chunkView]

/-- C2 (amended): storing a re-chunked file's chunks does NOT remove the old
chunks.  The stored rows afterwards are exactly the old rows (contents and
embeddings untouched) followed by the new-content chunks at ordinals that
were not already occupied — `ON CONFLICT(file_id, chunk_number) DO NOTHING`
keeps the old content at every colliding ordinal and leaves stale
higher-numbered chunks in place; the file's status is reset through
'fetched' as before. -/
theorem rechunk_keeps_old_chunks (fileId : Nat) (newChunks : List String)
    (st : DBState) :
    (storeChunksTx fileId newChunks st).chunks.map chunkView =
      st.chunks.map chunkView ++
        (((enumChunks newChunks).filter (fun p => !(st.chunks.any (fun c =>
            c.fileId == fileId && c.chunkNumber == p.1)))).map
          (fun p => (fileId, p.1, p.2, (none : Option (List ℚ))))) ∧
    ∀ c ∈ st.chunks, chunkView c ∈
      (storeChunksTx fileId newChunks st).chunks.map chunkView := by
  have hnd : ((enumChunks newChunks).map Prod.fst).Nodup := by
    have h1 : (enumChunks newChunks).map Prod.fst =
        (newChunks.enum.map Prod.fst).map (· + 1) := by
      simp only [enumChunks, List.map_map]
      rfl
    rw [h1, List.enum_map_fst]
    exact (List.nodup_range _).map (add_left_injective 1)
  have hview := insertChunksNC_view fileId (enumChunks newChunks) st hnd
  constructor
  · show (insertChunksNC fileId (enumChunks newChunks) st).chunks.map chunkView = _
    exact hview
  · intro c hc
    show chunkView c ∈
      (insertChunksNC fileId (enumChunks newChunks) st).chunks.map chunkView
    rw [hview]
    exact List.mem_append_left _ (List.mem_map.mpr ⟨c, hc, rfl⟩)

/-- C2 (counterexample): a file whose content identifier changed (status
re-set to 'pending' by the synchronizer) is re-chunked by
`processFileContents` into new content ["new1"], yet afterwards the stored
chunks of the file are still the two old-content chunks — nothing from the
new content is stored at the occupied ordinal and the stale ordinal-2 chunk
survives — refuting the claim that the old chunks are removed and the stored
chunks equal the new-content chunks. -/
theorem rechunk_counterexample :
    ((processFileContentsRun (fun _ => .ok "new content") (fun _ _ => ["new1"])
        "main" "/repo"
        ⟨[⟨1, "r", "/repo"⟩], [⟨1, 1, "main", "sha2", "pending"⟩],
         [⟨1, 1, "a.ts", "a.ts", "s2", "pending"⟩], [(1, 1)],
         [⟨1, 1, 1, "old1", some [1], some "m"⟩,
          ⟨2, 1, 2, "old2", some [1], some "m"⟩],
         2, 2, 2, 3⟩).1.chunks.map ChunkRec.content = ["old1", "old2"]) ∧
    ("new1" ∉ ((processFileContentsRun (fun _ => .ok "new content")
        (fun _ _ => ["new1"]) "main" "/repo"
        ⟨[⟨1, "r", "/repo"⟩], [⟨1, 1, "main", "sha2", "pending"⟩],
         [⟨1, 1, "a.ts", "a.ts", "s2", "pending"⟩], [(1, 1)],
         [⟨1, 1, 1, "old1", some [1], some "m"⟩,
          ⟨2, 1, 2, "old2", some [1], some "m"⟩],
         2, 2, 2, 3⟩).1.chunks.map ChunkRec.content)) ∧
    fileStatus ((processFileContentsRun (fun _ => .ok "new content")
        (fun _ _ => ["new1"]) "main" "/repo"
        ⟨[⟨1, "r", "/repo"⟩], [⟨1, 1, "main", "sha2", "pending"⟩],
         [⟨1, 1, "a.ts", "a.ts", "s2", "pending"⟩], [(1, 1)],
         [⟨1, 1, 1, "old1", some [1], some "m"⟩,
          ⟨2, 1, 2, "old2", some [1], some "m"⟩],
         2, 2, 2, 3⟩).1) 1 = some "fetched" := by
  refine ⟨?_, ?_, ?_⟩ <;> decide

/-!  `embedFiles` (src/tools/embedFiles.ts): select the branch's chunks
lacking an embedding, embed them in batches of 100, persist each batch in a
transaction, then set the branch status to 'embeddings_generated'.  The
Embedder collaborator is a fallible function; the configured model
identifier is recorded on each updated chunk. -/

inductive ToolResult (α : Type) where
  | success : α → ToolResult α
  | error : String → ToolResult α
deriving DecidableEq

def embeddingModelId : String := "unclemusclez/jina-embeddings-v2-base-code"

/-- The chunk-selection query of embedFiles (lines 81-89): chunks joined to
a file associated with the branch, whose embedding IS NULL. -/
def chunksNeedingEmbeddings (st : DBState) (branchId : Nat) : List ChunkRec :=
  st.chunks.filter (fun c =>
    c.embedding == none &&
      st.files.any (fun f => f.id == c.fileId &&
        st.assocs.any (fun a => a.1 == branchId && a.2 == f.id)))

/-- `UPDATE file_chunk SET embedding = ?, model_version = ? WHERE id = ?`. -/
def updateChunkEmb (chunkId : Nat) (emb : List ℚ) (chunks : List ChunkRec) :
    List ChunkRec :=
  chunks.map (fun c =>
    if c.id == chunkId then
      { c with embedding := some emb, modelVersion := some embeddingModelId }
    else c)

/-- One batch's transaction (lines 131-142): write each chunk's embedding. -/
def applyBatchUpdates : List (ChunkRec × List ℚ) → List ChunkRec → List ChunkRec
  | [], chunks => chunks
  | (c, e) :: rest, chunks => applyBatchUpdates rest (updateChunkEmb c.id e chunks)

/-- `chunks.slice(i, i + BATCH_SIZE)` batching. -/
def toBatchesAux (n : Nat) : Nat → List ChunkRec → List (List ChunkRec)
  | _, [] => []
  | 0, l => [l]
  | fuel + 1, l => l.take n :: toBatchesAux n fuel (l.drop n)

def toBatches (n : Nat) (l : List ChunkRec) : List (List ChunkRec) :=
  toBatchesAux n l.length l

/-- The batch loop (lines 114-151): embed each batch's contents and commit
its updates; a failing Embedder call aborts the loop, leaving the batches
already committed durable. -/
def embedBatchesRun (embedder : List String → Except String (List (List ℚ))) :
    List (List ChunkRec) → DBState → DBState × Option String
  | [], st => (st, none)
  | batch :: rest, st =>
    match embedder (batch.map ChunkRec.content) with
    | .error m => (st, some m)
    | .ok embs =>
      embedBatchesRun embedder rest
        { st with chunks := applyBatchUpdates (batch.zip embs) st.chunks }

/-- `embedFiles` (src/tools/embedFiles.ts lines 25-180). -/
def embedFiles (embedder : List String → Except String (List (List ℚ)))
    (branchId : Nat) (st : DBState) : DBState × ToolResult Nat :=
  match st.branches.find? (fun b => b.id == branchId) with
  | none => (st, .error "Branch does not exist")
  | some _ =>
    if (st.assocs.filter (fun a => a.1 == branchId)).length = 0 then
      (setBranchStatus branchId "embeddings_generated" st, .success 0)
    else
      let chunks := chunksNeedingEmbeddings st branchId
      if chunks.length = 0 then
        (setBranchStatus branchId "embeddings_generated" st, .success 0)
      else
        match embedBatchesRun embedder (toBatches 100 chunks) st with
        | (st', none) =>
          (setBranchStatus branchId "embeddings_generated" st', .success chunks.length)
        | (st', some m) =>
          (st', .error ("Error executing embedFiles tool: " ++ m))

theorem statusMap_find (branchId : Nat) (s : String) :
    ∀ bs : List BranchRec,
      ((bs.map (fun b => if b.id == branchId then { b with status := s } else b)).find?
          (fun b => b.id == branchId)).map BranchRec.status =
        ((bs.find? (fun b => b.id == branchId)).map BranchRec.status).map
          (fun _ => s) := by
  intro bs
  induction bs with
  | nil => rfl
  | cons b rest ih =>
    by_cases hb : (b.id == branchId) = true
    · simp only [List.map_cons, List.find?_cons, hb, if_true]
      rfl
    · have hb' : (b.id == branchId) = false := by simpa using hb
      simp only [List.map_cons, List.find?_cons, hb', Bool.false_eq_true, if_false]
      exact ih

theorem branchStatus_setBranchStatus (st : DBState) (branchId : Nat) (s : String) :
    branchStatus (setBranchStatus branchId s st) branchId =
      (branchStatus st branchId).map (fun _ => s) := by
  unfold branchStatus setBranchStatus
  exact statusMap_find branchId s st.branches

theorem embedBatchesRun_ok (embedder : List String → Except String (List (List ℚ)))
    (hok : ∀ l, ∃ v, embedder l = .ok v) :
    ∀ (batches : List (List ChunkRec)) (st : DBState),
      ∃ st', embedBatchesRun embedder batches st = (st', none) ∧
        st'.files = st.files ∧ st'.branches = st.branches := by
  intro batches
  induction batches with
  | nil =>
    intro st
    exact ⟨st, rfl, rfl, rfl⟩
  | cons batch rest ih =>
    intro st
    obtain ⟨v, hv⟩ := hok (batch.map ChunkRec.content)
    obtain ⟨st', he, hf, hb⟩ := ih
      { st with chunks := applyBatchUpdates (batch.zip v) st.chunks }
    refine ⟨st', ?_, hf, hb⟩
    simp only [embedBatchesRun, hv]
    exact he

/-- C3 (amended): whenever the branch exists and the Embedder succeeds,
`embedFiles` unconditionally sets the branch status to
'embeddings_generated' after embedding the chunks that lacked a vector; it
never consults or changes any file's status (in particular no file is ever
moved to 'ingested'), so a branch is marked complete even while an
associated file is still mid-pipeline. -/
theorem embedFiles_sets_status_unconditionally
    (embedder : List String → Except String (List (List ℚ))) (branchId : Nat)
    (st : DBState) (hb : (st.branches.find? (fun b => b.id == branchId)).isSome)
    (hok : ∀ l, ∃ v, embedder l = .ok v) :
    branchStatus (embedFiles embedder branchId st).1 branchId =
      some "embeddings_generated" ∧
    (embedFiles embedder branchId st).1.files = st.files := by
  obtain ⟨b, hb'⟩ := Option.isSome_iff_exists.mp hb
  have hbs : branchStatus st branchId = some b.status := by
    unfold branchStatus
    rw [hb']
    rfl
  by_cases hcnt : (st.assocs.filter (fun a => a.1 == branchId)).length = 0
  · have hred : embedFiles embedder branchId st =
        (setBranchStatus branchId "embeddings_generated" st, .success 0) := by
      unfold embedFiles
      rw [hb']
      rw [if_pos hcnt]
    rw [hred]
    refine ⟨?_, rfl⟩
    rw [branchStatus_setBranchStatus, hbs]
    rfl
  · by_cases hempty : (chunksNeedingEmbeddings st branchId).length = 0
    · have hred : embedFiles embedder branchId st =
          (setBranchStatus branchId "embeddings_generated" st, .success 0) := by
        unfold embedFiles
        rw [hb']
        rw [if_neg hcnt, if_pos hempty]
      rw [hred]
      refine ⟨?_, rfl⟩
      rw [branchStatus_setBranchStatus, hbs]
      rfl
    · obtain ⟨st', he, hf, hbr⟩ := embedBatchesRun_ok embedder hok
        (toBatches 100 (chunksNeedingEmbeddings st branchId)) st
      have hred : embedFiles embedder branchId st =
          (setBranchStatus branchId "embeddings_generated" st',
           .success (chunksNeedingEmbeddings st branchId).length) := by
        unfold embedFiles
        rw [hb']
        rw [if_neg hcnt, if_neg hempty, he]
      rw [hred]
      constructor
      · rw [branchStatus_setBranchStatus]
        unfold branchStatus
        rw [hbr, hb']
        rfl
      · show (setBranchStatus branchId "embeddings_generated" st').files = st.files
        rw [show (setBranchStatus branchId "embeddings_generated" st').files =
          st'.files from rfl]
        exact hf

/-- C3 (witness): the amended theorem applied to a store holding one pending
file and no chunks. -/
theorem embedFiles_sets_status_unconditionally_witness :
    ((((⟨[], [⟨1, 1, "main", "sha", "pending"⟩],
        [⟨1, 1, "a.ts", "a.ts", "s", "pending"⟩], [(1, 1)], [],
        1, 2, 2, 1⟩ : DBState)).branches.find? (fun b => b.id == 1)).isSome) ∧
    (branchStatus (embedFiles (fun l => .ok (l.map (fun _ => [1]))) 1
        ⟨[], [⟨1, 1, "main", "sha", "pending"⟩],
         [⟨1, 1, "a.ts", "a.ts", "s", "pending"⟩], [(1, 1)], [],
         1, 2, 2, 1⟩).1 1 = some "embeddings_generated" ∧
     (embedFiles (fun l => .ok (l.map (fun _ => [1]))) 1
        ⟨[], [⟨1, 1, "main", "sha", "pending"⟩],
         [⟨1, 1, "a.ts", "a.ts", "s", "pending"⟩], [(1, 1)], [],
         1, 2, 2, 1⟩).1.files =
       [⟨1, 1, "a.ts", "a.ts", "s", "pending"⟩]) :=
  ⟨by decide,
   embedFiles_sets_status_unconditionally (fun l => .ok (l.map (fun _ => [1]))) 1
     ⟨[], [⟨1, 1, "main", "sha", "pending"⟩],
      [⟨1, 1, "a.ts", "a.ts", "s", "pending"⟩], [(1, 1)], [],
      1, 2, 2, 1⟩ (by decide) (fun l => ⟨l.map (fun _ => [1]), rfl⟩)⟩

/-- C3 (counterexample): on a branch holding one file still in status
'pending' (mid-pipeline, no chunks yet), `embedFiles` marks the branch
'embeddings_generated' — the completion check consults only chunk
embeddings, never file statuses, refuting the claim that the status is set
only when every associated file reached 'ingested' or 'done'. -/
theorem embedFiles_marks_complete_with_pending_file :
    branchStatus (embedFiles (fun l => .ok (l.map (fun _ => [1]))) 1
        ⟨[], [⟨1, 1, "main", "sha", "pending"⟩],
         [⟨1, 1, "a.ts", "a.ts", "s", "pending"⟩], [(1, 1)], [],
         1, 2, 2, 1⟩).1 1 = some "embeddings_generated" ∧
    fileStatus (embedFiles (fun l => .ok (l.map (fun _ => [1]))) 1
        ⟨[], [⟨1, 1, "main", "sha", "pending"⟩],
         [⟨1, 1, "a.ts", "a.ts", "s", "pending"⟩], [(1, 1)], [],
         1, 2, 2, 1⟩).1 1 = some "pending" ∧
    ("pending" ≠ "ingested" ∧ "pending" ≠ "done") := by
  refine ⟨?_, ?_, by decide⟩ <;> decide

/-!  The retrieval phase of `queryRepo` (src/tools/processFiles.ts lines
600-722): embed the query, scan the branch's embedded chunks with the
similarity SQL, and when the scan is empty and chunks lack embeddings,
invoke `embedFiles` once and scan again once. -/

structure ScoredChunk where
  content : String
  path : String
  chunkNumber : Nat
  similarity : ℚ
deriving DecidableEq

/-- The FROM/JOIN/WHERE core shared by the scan queries: chunks joined to
their file and through the association to the branch. -/
def chunkFileJoin (st : DBState) (branchId : Nat) : List (ChunkRec × FileRec) :=
  st.chunks.filterMap (fun c =>
    match st.files.find? (fun f => f.id == c.fileId) with
    | some f =>
      if st.assocs.any (fun a => a.1 == branchId && a.2 == f.id) then some (c, f)
      else none
    | none => none)

def insertDesc (x : ScoredChunk) : List ScoredChunk → List ScoredChunk
  | [] => [x]
  | y :: ys =>
    if y.similarity < x.similarity then x :: y :: ys else y :: insertDesc x ys

/-- `ORDER BY similarity DESC`. -/
def sortDesc : List ScoredChunk → List ScoredChunk
  | [] => []
  | x :: xs => insertDesc x (sortDesc xs)

/-- One scan query: embedded chunks of the branch passing the file-pattern
condition, scored with `sim`, sorted descending, limited. -/
def scanChunks (st : DBState) (branchId : Nat) (queryEmb : List ℚ)
    (sim : List ℚ → List ℚ → ℚ) (includePatterns excludePatterns : List String)
    (lim : Nat) : List ScoredChunk :=
  let rows := (chunkFileJoin st branchId).filter (fun pr =>
    !(pr.1.embedding == none) &&
      filePatternAccepts includePatterns excludePatterns pr.2.path)
  let scored := rows.map (fun pr =>
    ⟨pr.1.content, pr.2.path, pr.1.chunkNumber,
     sim queryEmb (pr.1.embedding.getD [])⟩)
  (sortDesc scored).take lim

/-- The count of the branch's chunks lacking an embedding (lines 660-668). -/
def countChunksWithoutEmbeddings (st : DBState) (branchId : Nat) : Nat :=
  ((chunkFileJoin st branchId).filter (fun pr => pr.1.embedding == none)).length

structure SearchOutcome where
  results : List ScoredChunk
  backfills : Nat
  scans : Nat
deriving DecidableEq

/-- The scan / lazy-backfill phase (lines 628-722): run the initial scan
(score divided by dimensionality); if it is empty and some chunks lack
embeddings, run `embedFiles` once and the retry scan (bare product-sum
score) once; the retry results become the results. -/
def searchPhase (embedder : List String → Except String (List (List ℚ)))
    (branchId : Nat) (queryEmb : List ℚ)
    (includePatterns excludePatterns : List String) (lim : Nat)
    (st : DBState) : DBState × ToolResult SearchOutcome :=
  let results := scanChunks st branchId queryEmb similarityInitial
    includePatterns excludePatterns lim
  if results.isEmpty then
    if 0 < countChunksWithoutEmbeddings st branchId then
      match embedFiles embedder branchId st with
      | (st', .success _) =>
        (st', .success ⟨scanChunks st' branchId queryEmb similarityRetry
            includePatterns excludePatterns lim, 1, 2⟩)
      | (st', .error m) => (st', .error m)
    else (st, .success ⟨results, 0, 1⟩)
  else (st, .success ⟨results, 0, 1⟩)

/-- C8: the lazy-backfill contract of the retrieval phase.  An empty branch
(no chunks joined to it at all) yields an empty result list, no error and no
backfill; when the initial scan is empty and some chunk of the branch lacks
a vector, `embedFiles` is invoked exactly once and the scan re-run exactly
once on the post-backfill store, whose results are returned. -/
theorem queryRepo_lazy_backfill
    (embedder : List String → Except String (List (List ℚ)))
    (branchId : Nat) (queryEmb : List ℚ)
    (includePatterns excludePatterns : List String) (lim : Nat) (st : DBState)
    (hb : (st.branches.find? (fun b => b.id == branchId)).isSome)
    (hok : ∀ l, ∃ v, embedder l = .ok v) :
    (chunkFileJoin st branchId = [] →
      searchPhase embedder branchId queryEmb includePatterns excludePatterns
          lim st = (st, .success ⟨[], 0, 1⟩)) ∧
    (scanChunks st branchId queryEmb similarityInitial includePatterns
        excludePatterns lim = [] →
     0 < countChunksWithoutEmbeddings st branchId →
      ∃ st' : DBState,
        embedFiles embedder branchId st =
          (st', .success (chunksNeedingEmbeddings st branchId).length) ∧
        searchPhase embedder branchId queryEmb includePatterns excludePatterns
            lim st =
          (st', .success ⟨scanChunks st' branchId queryEmb similarityRetry
              includePatterns excludePatterns lim, 1, 2⟩)) := by
  obtain ⟨b, hb'⟩ := Option.isSome_iff_exists.mp hb
  constructor
  · intro hj
    have hscan : scanChunks st branchId queryEmb similarityInitial
        includePatterns excludePatterns lim = [] := by
      unfold scanChunks
      rw [hj]
      simp [sortDesc]
    have hcnt : countChunksWithoutEmbeddings st branchId = 0 := by
      unfold countChunksWithoutEmbeddings
      rw [hj]
      rfl
    unfold searchPhase
    rw [hscan, hcnt]
    rfl
  · intro hs hc
    have hne : ((chunkFileJoin st branchId).filter
        (fun pr => pr.1.embedding == none)) ≠ [] := by
      intro h0
      unfold countChunksWithoutEmbeddings at hc
      rw [h0] at hc
      exact absurd hc (by decide)
    obtain ⟨pr, hpr⟩ := List.exists_mem_of_ne_nil _ hne
    have hemb : (pr.1.embedding == none) = true := (List.mem_filter.mp hpr).2
    have hprj : pr ∈ chunkFileJoin st branchId := List.mem_of_mem_filter hpr
    unfold chunkFileJoin at hprj
    obtain ⟨c, hcm, hf⟩ := List.mem_filterMap.mp hprj
    have hfr : ∃ fr, st.files.find? (fun f => f.id == c.fileId) = some fr ∧
        (st.assocs.any (fun a => a.1 == branchId && a.2 == fr.id)) = true ∧
        pr = (c, fr) := by
      cases hfind : st.files.find? (fun f => f.id == c.fileId) with
      | none =>
        rw [hfind] at hf
        have hf2 : (none : Option (ChunkRec × FileRec)) = some pr := hf
        exact absurd hf2 (by simp)
      | some fr =>
        rw [hfind] at hf
        have hf2 : (if (st.assocs.any fun a => a.1 == branchId && a.2 == fr.id) = true
            then some (c, fr) else none) = some pr := hf
        by_cases hass : (st.assocs.any (fun a => a.1 == branchId && a.2 == fr.id)) = true
        · rw [if_pos hass] at hf2
          exact ⟨fr, rfl, hass, (Option.some_inj.mp hf2).symm⟩
        · rw [if_neg hass] at hf2
          exact absurd hf2 (by simp)
    obtain ⟨fr, hfind, hass, hpreq⟩ := hfr
    have hcemb : (c.embedding == none) = true := by
      rw [hpreq] at hemb
      exact hemb
    have hfrm : fr ∈ st.files := List.mem_of_find?_eq_some hfind
    have hfid := List.find?_some hfind
    have hcneed : c ∈ chunksNeedingEmbeddings st branchId := by
      unfold chunksNeedingEmbeddings
      refine List.mem_filter.mpr ⟨hcm, ?_⟩
      rw [Bool.and_eq_true]
      exact ⟨hcemb, List.any_eq_true.mpr ⟨fr, hfrm, by
        rw [Bool.and_eq_true]
        exact ⟨hfid, hass⟩⟩⟩
    have hlen : (chunksNeedingEmbeddings st branchId).length ≠ 0 := by
      intro h0
      rw [List.length_eq_zero] at h0
      rw [h0] at hcneed
      exact absurd hcneed (List.not_mem_nil c)
    have hacnt : (st.assocs.filter (fun a => a.1 == branchId)).length ≠ 0 := by
      obtain ⟨a, ham, hab⟩ := List.any_eq_true.mp hass
      have ha1 : (a.1 == branchId) = true := ((Bool.and_eq_true _ _).mp hab).1
      have hmem : a ∈ st.assocs.filter (fun a => a.1 == branchId) :=
        List.mem_filter.mpr ⟨ham, ha1⟩
      intro h0
      rw [List.length_eq_zero] at h0
      rw [h0] at hmem
      exact absurd hmem (List.not_mem_nil a)
    obtain ⟨st', he, hfiles, hbr⟩ := embedBatchesRun_ok embedder hok
      (toBatches 100 (chunksNeedingEmbeddings st branchId)) st
    have hEmbed : embedFiles embedder branchId st =
        (setBranchStatus branchId "embeddings_generated" st',
         .success (chunksNeedingEmbeddings st branchId).length) := by
      unfold embedFiles
      rw [hb']
      rw [if_neg hacnt, if_neg hlen, he]
    refine ⟨setBranchStatus branchId "embeddings_generated" st', hEmbed, ?_⟩
    unfold searchPhase
    simp only [hs, List.isEmpty_nil, if_true]
    rw [if_pos hc, hEmbed]

/-- C8 (witness): the backfill theorem applied (a) to a branch with no
chunks, which returns empty results without backfill, and (b) to a branch
whose one chunk lacks a vector, which runs exactly one backfill and one
retry scan. -/
theorem queryRepo_lazy_backfill_witness :
    (searchPhase (fun l => .ok (l.map (fun _ => [1]))) 1 [1] [] [] 10
        ⟨[], [⟨1, 1, "main", "s", "pending"⟩], [], [], [], 1, 2, 1, 1⟩ =
      (⟨[], [⟨1, 1, "main", "s", "pending"⟩], [], [], [], 1, 2, 1, 1⟩,
       .success ⟨[], 0, 1⟩)) ∧
    (∃ st' : DBState,
      embedFiles (fun l => .ok (l.map (fun _ => [1]))) 1
          ⟨[], [⟨1, 1, "main", "s", "pending"⟩],
           [⟨1, 1, "a.ts", "a.ts", "s", "fetched"⟩], [(1, 1)],
           [⟨1, 1, 1, "code text", none, none⟩], 1, 2, 2, 2⟩ =
        (st', .success (chunksNeedingEmbeddings
          ⟨[], [⟨1, 1, "main", "s", "pending"⟩],
           [⟨1, 1, "a.ts", "a.ts", "s", "fetched"⟩], [(1, 1)],
           [⟨1, 1, 1, "code text", none, none⟩], 1, 2, 2, 2⟩ 1).length) ∧
      searchPhase (fun l => .ok (l.map (fun _ => [1]))) 1 [1] [] [] 10
          ⟨[], [⟨1, 1, "main", "s", "pending"⟩],
           [⟨1, 1, "a.ts", "a.ts", "s", "fetched"⟩], [(1, 1)],
           [⟨1, 1, 1, "code text", none, none⟩], 1, 2, 2, 2⟩ =
        (st', .success ⟨scanChunks st' 1 [1] similarityRetry [] [] 10, 1, 2⟩)) :=
  ⟨(queryRepo_lazy_backfill (fun l => .ok (l.map (fun _ => [1]))) 1 [1] [] [] 10
      ⟨[], [⟨1, 1, "main", "s", "pending"⟩], [], [], [], 1, 2, 1, 1⟩
      (by decide) (fun l => ⟨l.map (fun _ => [1]), rfl⟩)).1 (by decide),
   (queryRepo_lazy_backfill (fun l => .ok (l.map (fun _ => [1]))) 1 [1] [] [] 10
      ⟨[], [⟨1, 1, "main", "s", "pending"⟩],
       [⟨1, 1, "a.ts", "a.ts", "s", "fetched"⟩], [(1, 1)],
       [⟨1, 1, 1, "code text", none, none⟩], 1, 2, 2, 2⟩
      (by decide) (fun l => ⟨l.map (fun _ => [1]), rfl⟩)).2 (by decide) (by decide)⟩

/-!  The entry operations (`ingestBranch` in src/tools/queryRepo.ts lines
730-903, `processFiles` in src/tools/processFiles.ts lines 194-418, and the
pipeline `queryRepo` of src/tools/processFiles.ts lines 505-783).  Each
wraps its whole body in try/catch and returns either a success payload or
`{error: {message}}`; the collaborators (VCS, file reader, chunker,
Embedder) are fallible functions. -/

structure Collab where
  clone : String → Except String String
  defaultBranch : Except String String
  checkout : String → Except String Unit
  revparse : String → Except String String
  listFiles : String → Except String (List RepoFile)
  readFile : String → Except String String
  chunker : String → String → List String
  embedder : List String → Except String (List (List ℚ))

/-- `path.basename(repoUrl, ".git")`. -/
def repoNameOf (url : String) : String :=
  let base := (url.data.reverse.takeWhile (fun c => !(c == '/'))).reverse
  if ".git".data.isSuffixOf base then String.mk (base.take (base.length - 4))
  else String.mk base

structure IngestData where
  repoLocalPath : String
  repoId : Nat
  branchId : Nat
  needsUpdate : Bool
  repoName : String
  actualBranch : String
  latestCommit : String
deriving DecidableEq

/-- `ingestBranch` (src/tools/queryRepo.ts lines 730-903): clone, resolve
the branch (falling back to "main" when the default-branch lookup fails),
checkout, revparse, upsert the repository and branch rows, and decide
`needsUpdate` from the commit sha and the branch status. -/
def ingestBranchRun (cb : Collab) (repoUrl : String) (branch : Option String)
    (st : DBState) : DBState × ToolResult IngestData :=
  if repoUrl = "" then
    (st, .error "Required parameter (repoUrl) is missing")
  else
    match cb.clone repoUrl with
    | .error m => (st, .error ("Error executing ingestBranch tool: " ++ m))
    | .ok repoLocalPath =>
      let b0 := branch.getD ""
      let actualBranch :=
        if b0 = "" then
          match cb.defaultBranch with
          | .ok d => d
          | .error _ => "main"
        else b0
      match cb.checkout actualBranch with
      | .error m => (st, .error ("Error executing ingestBranch tool: " ++ m))
      | .ok _ =>
        match cb.revparse actualBranch with
        | .error m => (st, .error ("Error executing ingestBranch tool: " ++ m))
        | .ok latestCommit =>
          let repoName := repoNameOf repoUrl
          let pr : DBState × Nat :=
            match st.repos.find? (fun r => r.name == repoName) with
            | some r => (st, r.id)
            | none =>
              ({ st with
                  repos := st.repos ++ [⟨st.nextRepoId, repoName, repoLocalPath⟩],
                  nextRepoId := st.nextRepoId + 1 }, st.nextRepoId)
          let st1 := pr.1
          let repoId := pr.2
          match st1.branches.find? (fun b =>
              b.name == actualBranch && b.repoId == repoId) with
          | some br =>
            let shaChanged := !(br.lastCommitSha == latestCommit)
            let st2 :=
              if shaChanged then
                { st1 with branches := st1.branches.map (fun b =>
                    if b.id == br.id then
                      { b with lastCommitSha := latestCommit, status := "pending" }
                    else b) }
              else st1
            (st2, .success ⟨repoLocalPath, repoId, br.id,
              shaChanged || !(br.status == "embeddings_generated"),
              repoName, actualBranch, latestCommit⟩)
          | none =>
            ({ st1 with
                branches := st1.branches ++
                  [⟨st1.nextBranchId, repoId, actualBranch, latestCommit, "pending"⟩],
                nextBranchId := st1.nextBranchId + 1 },
             .success ⟨repoLocalPath, repoId, st1.nextBranchId, true,
               repoName, actualBranch, latestCommit⟩)

/-- The `processFiles` entry (src/tools/processFiles.ts lines 194-418): skip
when no update is needed; list the branch's files, run the sync transaction,
cap the files to process, run `processFileContents` (whose failure is caught
and only logged — the entry still succeeds), and set the branch status to
'files_processed' when content processing succeeded. -/
def processFilesEntry (cb : Collab) (repoLocalPath : String)
    (repoId branchId : Nat) (actualBranch : String) (needsUpdate : Bool)
    (st : DBState) : DBState × ToolResult (List Nat) :=
  if !needsUpdate then (st, .success [])
  else
    match cb.listFiles actualBranch with
    | .error m => (st, .error ("Error executing processFiles tool: " ++ m))
    | .ok files =>
      let out := processFilesTx repoId branchId files st
      let limited := out.toProcess.take 1000000
      match processFileContentsRun cb.readFile cb.chunker actualBranch
          repoLocalPath out.st with
      | (st2, none) => (setBranchStatus branchId "files_processed" st2,
          .success limited)
      | (st2, some _) => (st2, .success limited)

def joinSpace : List String → String
  | [] => ""
  | [x] => x
  | x :: xs => x ++ " " ++ joinSpace xs

def containsSubstr (hay sub : String) : Bool := (findSub sub.data hay.data).isSome

/-- The keyword post-filter (lines 724-748): keep results whose lower-cased
content contains at least one trimmed lower-cased keyword. -/
def keywordFilter (kws : Option (List String)) (results : List ScoredChunk) :
    List ScoredChunk :=
  match kws with
  | none => results
  | some ks =>
    if 0 < ks.length then
      results.filter (fun r => ks.any (fun kw =>
        containsSubstr (toLowerStr r.content) (toLowerStr (trimStr kw))))
    else results

structure QueryInput where
  repoUrl : String
  branch : Option String
  semanticSearch : String
  keywordsSearch : Option (List String)
  filePatterns : List String
  excludePatterns : List String
  limit : Option Nat

structure QueryOutput where
  repoUrl : String
  branch : String
  results : List ScoredChunk

/-- The pipeline `queryRepo` entry (src/tools/processFiles.ts lines
505-783): validate, ingest, process files, embed the query, scan with lazy
backfill, keyword-filter, and wrap every stage failure as `{error:
{message}}`. -/
def queryRepoEntry (cb : Collab) (input : QueryInput) (st : DBState) :
    DBState × ToolResult QueryOutput :=
  if input.repoUrl = "" ∨ (input.semanticSearch = "" ∧ input.keywordsSearch = none) then
    (st, .error "Required parameters (repoUrl, semanticSearch or keywordsSearch) are missing")
  else
    let semanticSearch :=
      if input.semanticSearch = "" then joinSpace (input.keywordsSearch.getD [])
      else input.semanticSearch
    match ingestBranchRun cb input.repoUrl input.branch st with
    | (st1, .error m) => (st1, .error m)
    | (st1, .success bd) =>
      match processFilesEntry cb bd.repoLocalPath bd.repoId bd.branchId
          bd.actualBranch bd.needsUpdate st1 with
      | (st2, .error m) => (st2, .error m)
      | (st2, .success _) =>
        match cb.embedder [semanticSearch] with
        | .error m => (st2, .error ("Error executing queryRepo tool: " ++ m))
        | .ok embs =>
          match searchPhase cb.embedder bd.branchId (embs.getD 0 [])
              input.filePatterns input.excludePatterns (input.limit.getD 10) st2 with
          | (st3, .error m) => (st3, .error m)
          | (st3, .success outcome) =>
            (st3, .success ⟨input.repoUrl, bd.actualBranch,
              keywordFilter input.keywordsSearch outcome.results⟩)

/-- C9: for every input, store state and collaborator behaviour (each
collaborator call may fail), the `queryRepo` pipeline entry and the
`embedFiles` entry return a structured payload — either a success value or
an error message — and, being total functions of the embedding, never throw
across their boundary. -/
theorem entry_returns_payload (cb : Collab) (input : QueryInput)
    (branchId : Nat) (st : DBState) :
    ((∃ o, (queryRepoEntry cb input st).2 = ToolResult.success o) ∨
     (∃ m, (queryRepoEntry cb input st).2 = ToolResult.error m)) ∧
    ((∃ n, (embedFiles cb.embedder branchId st).2 = ToolResult.success n) ∨
     (∃ m, (embedFiles cb.embedder branchId st).2 = ToolResult.error m)) := by
  constructor
  · cases hq : (queryRepoEntry cb input st).2 with
    | success o => exact Or.inl ⟨o, rfl⟩
    | error m => exact Or.inr ⟨m, rfl⟩
  · cases hq : (embedFiles cb.embedder branchId st).2 with
    | success n => exact Or.inl ⟨n, rfl⟩
    | error m => exact Or.inr ⟨m, rfl⟩

end CodeContext
